import Mathlib

/-!
# The driver of the analysis pipeline (`main/realmain.cc`)

A shallow embedding of `runAutogen` and of the control skeleton of `realmain`.

* Strings are Lean strings; `std::string::operator<` is the lexicographic order on the
  characters (`stringLt`).
* `std::vector` is `List`; `std::set<string>` and `std::map<string, set<string>>` are lists kept
  in the iteration order of the container, with the containers' insertion written out.
* The parallel part of `runAutogen` is a list of pop events `(worker, index)` in the order in
  which they happen, and the order in which the workers' batches reach the driver.
* The functions `runAutogen` calls on a parsed file (`isRBI`, `Autogen::generate`, `toString`,
  `toMsgpack`, `classlist`, `subclasses`) are not part of `realmain.cc`; they are parameters
  (`AutogenOps`), functions of the read-only context and their arguments.
* `realmain` is its control skeleton: the steps it takes on the global state, the cache store it
  creates, the status it writes to the metrics file and the value it returns, as functions of
  the options and of what the global state reports (`Run`).
* The bounded work queue is not part of `realmain.cc`; it is modelled from its contract.
* `findTyped` works on the source as a list of chars; a `size_t` is a natural number taken
  modulo `2 ^ 64` where it is decremented, and a read `source[i]` outside the source ends the
  run with `Scan.outOfRange i`.
-/

namespace Sorbet

/-! ## Strings and containers -/

/-- Comparison `a < b` of two `std::string`: lexicographic on the characters. -/
def stringLt (a b : String) : Bool := decide (a.data < b.data)

/-- A `std::map<string, set<string>>`, as the sequence its iteration yields. -/
abbrev SubclassMap := List (String × List String)

/-- The struct `AutogenResult::Serialized`; a fresh value has empty fields. -/
structure Serialized where
  strval : String := ""
  msgpack : String := ""
  classlist : List String := []
  subclasses : SubclassMap := []
deriving DecidableEq, Repr

/-- The struct `AutogenResult` as a worker pushes it: the prints and the weight `n` of the push
(the counters play no part in what is printed). -/
structure AutogenResult where
  prints : List (Nat × Serialized)
  n : Nat
deriving DecidableEq, Repr

/-- The fields of `options::Options` that `runAutogen` and the control flow of `realmain`
read; `printX` is `opts.print.X.enabled`. -/
structure Options where
  printAutogen : Bool := false
  printAutogenMsgPack : Bool := false
  printAutogenClasslist : Bool := false
  printAutogenSubclasses : Bool := false
  autogenVersion : Nat := 0
  autogenSubclassesParents : List String := []
  autogenSubclassesAbsoluteIgnorePatterns : List String := []
  autogenSubclassesRelativeIgnorePatterns : List String := []
  cacheDir : String := ""
  skipDSLPasses : Bool := false
  dslPluginTriggers : List (String × String) := []
  runLSP : Bool := false
  inlineInput : String := ""
  someCounters : List String := []
  enableCounters : Bool := false
  metricsFile : String := ""
  supressNonCriticalErrors : Bool := false
deriving DecidableEq, Repr

/-- The operations on parsed files that `runAutogen` calls; `Ctx` is `core::Context`,
`ParsedFile` is `ast::ParsedFile` and `PF` is `autogen::ParsedFile`. -/
structure AutogenOps (Ctx ParsedFile PF : Type) where
  /-- The test `tree.file.data(ctx).isRBI()`. -/
  isRBI : Ctx → ParsedFile → Bool
  /-- The call `autogen::Autogen::generate(ctx, move(tree))`. -/
  generate : Ctx → ParsedFile → PF
  /-- The member `pf.tree`. -/
  tree : PF → ParsedFile
  /-- The call `pf.toString(ctx)`. -/
  toString : PF → Ctx → String
  /-- The call `pf.toMsgpack(ctx, version)`. -/
  toMsgpack : PF → Ctx → Nat → String
  /-- The call `pf.classlist(ctx, out)`, returning the new value of `out`. -/
  classlist : PF → Ctx → List String → List String
  /-- The call `pf.subclasses(ctx, parents, absIgnore, relIgnore, out)`, returning the new `out`. -/
  subclasses : PF → Ctx → List String → List String → List String → SubclassMap → SubclassMap

/-- Modelled from the spec: the step of the sort `fast_sort` (declared outside `realmain.cc`),
which re-sorts a list by the less-than test `comp`; here a sort by insertion, `a` going before
the first element it is less than. -/
def fast_sort_insert {α : Type} (comp : α → α → Bool) (a : α) : List α → List α
  | [] => [a]
  | b :: l => if comp a b then a :: b :: l else b :: fast_sort_insert comp a l

/-- Modelled from the spec: the sort `fast_sort(container, comp)` (declared outside
`realmain.cc`), which re-sorts a list by the less-than test `comp`. Where `realmain.cc` uses it
the sorted list does not depend on the sorting method: `merged` has no two equal indices and
equal strings are the same string. -/
def fast_sort {α : Type} (comp : α → α → Bool) : List α → List α
  | [] => []
  | a :: l => fast_sort_insert comp a (fast_sort comp l)

/-- The comparator is a strict order: asymmetric and transitive. -/
structure StrictComp {α : Type} (comp : α → α → Bool) : Prop where
  asymm : ∀ a b, comp a b = true → comp b a = false
  trans : ∀ a b c, comp a b = true → comp b c = true → comp a c = true

/-- The rest of `std::unique` once `prev` has been kept. -/
def uniqueFrom (prev : String) : List String → List String
  | [] => []
  | b :: rest => if prev = b then uniqueFrom prev rest else b :: uniqueFrom b rest

/-- The range `[begin, last)` left by `std::unique`: of every run of equal neighbours the first
is kept. -/
def unique : List String → List String
  | [] => []
  | a :: rest => a :: uniqueFrom a rest

/-- The call `std::set<string>::insert(x)`. -/
def setInsert (x : String) : List String → List String
  | [] => [x]
  | y :: ys =>
    if stringLt x y then x :: y :: ys
    else if stringLt y x then y :: setInsert x ys
    else y :: ys

/-- The call `set.insert(children.begin(), children.end())`. -/
def setInsertRange (children : List String) (s : List String) : List String :=
  children.foldl (fun acc c => setInsert c acc) s

/-- The statement `mergedSubclasses[parentName].insert(children.begin(), children.end())`:
`operator[]` finds the entry of `parentName` or creates an empty one at its place. -/
def mapInsertRange (parentName : String) (children : List String) : SubclassMap → SubclassMap
  | [] => [(parentName, setInsertRange children [])]
  | (q, cs) :: rest =>
    if stringLt parentName q then (parentName, setInsertRange children []) :: (q, cs) :: rest
    else if stringLt q parentName then (q, cs) :: mapInsertRange parentName children rest
    else (q, setInsertRange children cs) :: rest

/-- The text `fmt("{}\n", fmt::join(lines, "\n"))`. -/
def fmtJoinLn (lines : List String) : String :=
  String.intercalate "\n" lines ++ "\n"

/-! ## `runAutogen`: the workers -/

section Workers

variable {Ctx ParsedFile PF : Type}

/-- One turn of the worker's loop on the tree `indexed[idx]`: nothing is recorded for an RBI
file; otherwise the tree is replaced by `pf.tree` and the selected fields are serialized. -/
def autogenOne (ops : AutogenOps Ctx ParsedFile PF) (ctx : Ctx) (opts : Options)
    (tree : ParsedFile) : Option Serialized × ParsedFile :=
  if ops.isRBI ctx tree then (none, tree)
  else
    let pf := ops.generate ctx tree
    let s0 : Serialized := {}
    let s1 := if opts.printAutogen then { s0 with strval := ops.toString pf ctx } else s0
    let s2 := if opts.printAutogenMsgPack then
      { s1 with msgpack := ops.toMsgpack pf ctx opts.autogenVersion } else s1
    let s3 := if opts.printAutogenClasslist then
      { s2 with classlist := ops.classlist pf ctx s2.classlist } else s2
    let s4 := if opts.printAutogenSubclasses then
      { s3 with subclasses := (ops.subclasses pf ctx opts.autogenSubclassesParents
          opts.autogenSubclassesAbsoluteIgnorePatterns
          opts.autogenSubclassesRelativeIgnorePatterns s3.subclasses) } else s3
    (some s4, ops.tree pf)

/-- One successful `try_pop` and the turn of the loop it starts. -/
structure PopEvent where
  worker : Nat
  idx : Nat
  out : Option Serialized
deriving DecidableEq, Repr

/-- The job `multiplexJob("runAutogen", ...)`: `pops` lists the successful pops `(worker, idx)`
of all workers in the order in which they happen. Every turn reads and writes `indexed[idx]`
and the worker's own `out`. The result is the log of the turns and the final `indexed`. -/
def runWorkers (ops : AutogenOps Ctx ParsedFile PF) (ctx : Ctx) (opts : Options) :
    List (Nat × Nat) → List ParsedFile → List PopEvent × List ParsedFile
  | [], indexed => ([], indexed)
  | (w, idx) :: rest, indexed =>
    match indexed[idx]? with
    | none =>
      let r := runWorkers ops ctx opts rest indexed
      (⟨w, idx, none⟩ :: r.1, r.2)
    | some tree =>
      let o := autogenOne ops ctx opts tree
      let r := runWorkers ops ctx opts rest (indexed.set idx o.2)
      (⟨w, idx, o.1⟩ :: r.1, r.2)

/-- The prints one turn appends: `out.prints.emplace_back(make_pair(idx, serialized))`. -/
def PopEvent.print (e : PopEvent) : Option (Nat × Serialized) :=
  e.out.map (fun s => (e.idx, s))

/-- The `AutogenResult` worker `w` pushes when its loop ends, with weight `n`. -/
def workerResult (log : List PopEvent) (w : Nat) : AutogenResult :=
  let mine := log.filter (fun e => e.worker = w)
  { prints := mine.filterMap PopEvent.print, n := mine.length }

/-- The comparator of the sort of `merged`: `lhs.first < rhs.first`. -/
def byIndex (lhs rhs : Nat × Serialized) : Bool := decide (lhs.1 < rhs.1)

/-- The driver's loop over the result queue followed by the sort: `arrival` lists the workers in
the order in which their batches are popped. -/
def mergeResults (log : List PopEvent) (arrival : List Nat) : List (Nat × Serialized) :=
  fast_sort byIndex (arrival.flatMap (fun w => (workerResult log w).prints))

end Workers

/-! ## `runAutogen`: the printing -/

/-- A call of one of the printers of `opts.print`. -/
inductive Printed where
  | Autogen (s : String)
  | AutogenMsgPack (s : String)
  | AutogenClasslist (s : String)
  | AutogenSubclasses (s : String)
deriving DecidableEq, Repr

/-- The prints of the first loop over `merged`, for one element. -/
def printElem (opts : Options) (elem : Nat × Serialized) : List Printed :=
  (if opts.printAutogen then [Printed.Autogen elem.2.strval] else []) ++
  (if opts.printAutogenMsgPack then [Printed.AutogenMsgPack elem.2.msgpack] else [])

/-- The vector `mergedClasslist` up to `last`: concatenated, sorted, made unique. -/
def mergedClasslist (merged : List (Nat × Serialized)) : List String :=
  unique (fast_sort stringLt (merged.flatMap (fun el => el.2.classlist)))

/-- The inner loop of the merge of the subclass maps, for one element of `merged`. -/
def mergeSubclassesStep (m : SubclassMap) (el : Nat × Serialized) : SubclassMap :=
  el.2.subclasses.foldl
    (fun acc pc => if pc.1.isEmpty then acc else mapInsertRange pc.1 pc.2 acc) m

/-- The map `mergedSubclasses`. -/
def mergedSubclasses (merged : List (Nat × Serialized)) : SubclassMap :=
  merged.foldl mergeSubclassesStep []

/-- The lines of one entry of `mergedSubclasses`. -/
def subclassLines (entry : String × List String) : List String :=
  entry.1 :: entry.2.map (fun child => " " ++ child)

/-- The vector `mergedSubclasseslist`. -/
def mergedSubclasseslist (m : SubclassMap) : List String :=
  m.flatMap subclassLines

/-- Everything `runAutogen` prints, from `merged` after the sort. -/
def printMerged (opts : Options) (merged : List (Nat × Serialized)) : List Printed :=
  merged.flatMap (printElem opts) ++
  (if opts.printAutogenClasslist then
    [Printed.AutogenClasslist (fmtJoinLn (mergedClasslist merged))] else []) ++
  (if opts.printAutogenSubclasses then
    [Printed.AutogenSubclasses (fmtJoinLn (mergedSubclasseslist (mergedSubclasses merged)))]
   else [])

/-- The text given to the classlist printer, if the call is one to that printer. -/
def Printed.classlistText : Printed → Option String
  | Printed.AutogenClasslist s => some s
  | _ => none

/-- The text given to the subclasses printer, if the call is one to that printer. -/
def Printed.subclassesText : Printed → Option String
  | Printed.AutogenSubclasses s => some s
  | _ => none

/-- The function `runAutogen`: what it prints and the final `indexed`, for the pops `pops` of
the workers and the arrival order `arrival` of their batches. -/
def runAutogen {Ctx ParsedFile PF : Type} (ops : AutogenOps Ctx ParsedFile PF) (ctx : Ctx)
    (opts : Options) (pops : List (Nat × Nat)) (arrival : List Nat)
    (indexed : List ParsedFile) : List Printed × List ParsedFile :=
  let r := runWorkers ops ctx opts pops indexed
  (printMerged opts (mergeResults r.1 arrival), r.2)

/-- The same loop on a single worker that pops the indices `0 .. N-1` in ascending order. -/
def singleWorkerPops (n : Nat) : List (Nat × Nat) :=
  (List.range n).map (fun i => (0, i))

/-- What one file contributes when the files are processed one after another: the pair
`(i, serialized)` for a file that is not an RBI file, nothing for an RBI file. -/
def fileOutput {Ctx ParsedFile PF : Type} (ops : AutogenOps Ctx ParsedFile PF) (ctx : Ctx)
    (opts : Options) (indexed : List ParsedFile) (i : Nat) : Option (Nat × Serialized) :=
  (indexed[i]?).bind (fun tree => (autogenOne ops ctx opts tree).1.map (fun s => (i, s)))

/-- The result list named by the order-restoration property: the indices `0 .. N-1` in
ascending order, one pair per file that is not an RBI file. -/
def inOrderPrints {Ctx ParsedFile PF : Type} (ops : AutogenOps Ctx ParsedFile PF) (ctx : Ctx)
    (opts : Options) (indexed : List ParsedFile) : List (Nat × Serialized) :=
  (List.range indexed.length).filterMap (fileOutput ops ctx opts indexed)

/-! ## `realmain`: the control skeleton -/

/-- The three sub-tables of the global state that an unfreeze token can open. -/
inductive Table where
  | Name
  | Symbol
  | File
deriving DecidableEq, Repr

/-- The steps of `realmain` that the freeze discipline and the phase order are about, in the
order in which `realmain` takes them. `unfreeze t` is the constructor of `core::UnfreezeNameTable`,
`core::UnfreezeSymbolTable` or `core::UnfreezeFileTable`, `release t` its destructor at the end of
the scope. -/
inductive Event where
  | unfreeze (t : Table)
  | release (t : Table)
  | createInitialGlobalState
  | addDslPlugin
  | runLSP
  | reserveFiles
  | enterFile
  | index
  | retainGlobalState
  | name
  | runConstantResolution
  | runAutogen
  | resolve
  | typecheck
deriving DecidableEq, Repr

/-- What the rest of the program reports to `realmain` in one run: the version string, the
flag `gs->runningUnderAutogen` as `createInitialGlobalState` leaves it, and the answers of
`gs->hadCriticalError()` and `gs->totalErrors()` at the end of the run. -/
structure Run where
  fullVersionString : String := ""
  initialRunningUnderAutogen : Bool := false
  hadCriticalError : Bool := false
  totalErrors : Nat := 0
deriving DecidableEq, Repr

/-- The flag `gs->runningUnderAutogen` when the pipeline reads it: set when one of the four
autogen printers is enabled. -/
def runningUnderAutogen (opts : Options) (run : Run) : Bool :=
  if opts.printAutogen || opts.printAutogenMsgPack || opts.printAutogenClasslist ||
      opts.printAutogenSubclasses then true
  else run.initialRunningUnderAutogen

/-- The loop over `opts.dslPluginTriggers`: every turn opens an `UnfreezeNameTable`, calls
`addDslPlugin` and leaves the scope. -/
def dslPluginEvents (opts : Options) : List Event :=
  opts.dslPluginTriggers.flatMap
    (fun _ => [Event.unfreeze Table.Name, Event.addDslPlugin, Event.release Table.Name])

/-- The branch of `realmain` for the batch mode (`opts.runLSP` not set), up to `runAutogen` or
`typecheck`. -/
def pipelineEvents (opts : Options) (run : Run) : List Event :=
  [Event.reserveFiles, Event.unfreeze Table.File] ++
  (if !opts.inlineInput.isEmpty then [Event.enterFile] else []) ++
  [Event.release Table.File, Event.index, Event.retainGlobalState] ++
  (if runningUnderAutogen opts run then
    [Event.name, Event.unfreeze Table.Name, Event.unfreeze Table.Symbol,
     Event.runConstantResolution, Event.release Table.Symbol, Event.release Table.Name,
     Event.runAutogen]
   else [Event.resolve, Event.typecheck])

/-- The `KeyValueStore` constructor arguments: version, directory, namespace. -/
structure KeyValueStore where
  version : String
  path : String
  flavor : String
deriving DecidableEq, Repr

/-- What `realmain` did: its steps, the cache store it created, the status it wrote to the
metrics file, and the value it returned. -/
structure Outcome where
  events : List Event
  kvstore : Option KeyValueStore
  metricsStatus : Option String
  returnCode : Int
deriving DecidableEq, Repr

/-- The function `realmain`. The global `returnCode` is set to `0` at the start and is next
assigned after the metrics file has been written. -/
def realmain (opts : Options) (run : Run) : Outcome :=
  let returnCode : Int := 0
  let kvstore :=
    if !opts.cacheDir.isEmpty then
      some (KeyValueStore.mk run.fullVersionString opts.cacheDir
        (if opts.skipDSLPasses then "nodsl" else "default"))
    else none
  let events := [Event.createInitialGlobalState] ++ dslPluginEvents opts ++
    (if opts.runLSP then [Event.runLSP] else pipelineEvents opts run)
  if !opts.someCounters.isEmpty && opts.enableCounters then
    { events := events, kvstore := kvstore, metricsStatus := none, returnCode := 1 }
  else
    let metricsStatus :=
      if !opts.metricsFile.isEmpty then
        some (if run.hadCriticalError then "Error"
          else if returnCode != 0 then "Failure"
          else "Success")
      else none
    let returnCode :=
      if run.hadCriticalError then 10
      else if returnCode == 0 && decide (run.totalErrors > 0) && !opts.supressNonCriticalErrors
        then 1
      else returnCode
    { events := events, kvstore := kvstore, metricsStatus := metricsStatus,
      returnCode := returnCode }

/-- The phases of the pipeline. -/
def Event.isPhase : Event → Bool
  | Event.reserveFiles => true
  | Event.index => true
  | Event.name => true
  | Event.runConstantResolution => true
  | Event.runAutogen => true
  | Event.resolve => true
  | Event.typecheck => true
  | _ => false

/-- The unfreeze tokens that are live after one more step. -/
def stepToken (live : List Table) : Event → List Table
  | Event.unfreeze t => t :: live
  | Event.release t => live.erase t
  | _ => live

/-- The unfreeze tokens that are live after the steps `es`, starting from the tokens `live`. -/
def liveTokens (live : List Table) (es : List Event) : List Table :=
  es.foldl stepToken live

/-- The sub-tables a step mutates: `addDslPlugin` enters names, `enterFile` registers a file,
`runConstantResolution` enters names and symbols. -/
def Event.mutates : Event → List Table
  | Event.addDslPlugin => [Table.Name]
  | Event.enterFile => [Table.File]
  | Event.runConstantResolution => [Table.Name, Table.Symbol]
  | _ => []

/-- A check of the freeze discipline along a list of steps: every step finds a live token for
each sub-table it mutates, and `runAutogen` starts with no live token. -/
def disciplined (live : List Table) : List Event → Bool
  | [] => true
  | e :: es =>
    e.mutates.all (fun t => decide (t ∈ live)) &&
    (decide (e ≠ Event.runAutogen) || live.isEmpty) &&
    disciplined (stepToken live e) es

/-! ## The bounded work queue -/

/-- Modelled from the spec: the answer of a pop of the bounded work queue, whose code
(`ConcurrentBoundedQueue`) is not among the sources. A pop returns an item, "empty-try-again",
or "drained" (no more items will ever arrive). -/
inductive DequeueResult (α : Type) where
  | gotItem (a : α)
  | emptyTryAgain
  | drained
deriving DecidableEq, Repr

/-- Modelled from the spec: the test `result.done()` on the answer of a pop of the bounded work
queue (not among the sources), true for "drained". -/
def DequeueResult.done {α : Type} : DequeueResult α → Bool
  | DequeueResult.drained => true
  | _ => false

/-- Modelled from the spec: the bounded work queue (`ConcurrentBoundedQueue`), whose code is not
among the sources. It has a fixed capacity `bound`, holds the items with the weight they were
pushed with, oldest first, and tracks the total pushed weight and the total popped weight to
decide when it has drained. -/
structure BoundedQueue (α : Type) where
  bound : Nat
  items : List (α × Nat)
  pushedWeight : Nat
  poppedWeight : Nat
deriving DecidableEq, Repr

/-- Modelled from the spec: the constructor of the bounded work queue (not among the sources),
sized to `bound`. -/
def BoundedQueue.create {α : Type} (bound : Nat) : BoundedQueue α :=
  { bound := bound, items := [], pushedWeight := 0, poppedWeight := 0 }

/-- Modelled from the spec: `push(item, weight)` of the bounded work queue (not among the
sources) adds an item plus a weight used for closing-detection. -/
def BoundedQueue.push {α : Type} (q : BoundedQueue α) (item : α) (weight : Nat) :
    BoundedQueue α :=
  { q with items := q.items ++ [(item, weight)], pushedWeight := q.pushedWeight + weight }

/-- Modelled from the spec: `try_pop()` of the bounded work queue (not among the sources)
returns an item when one is queued; on an empty queue it reports "drained" when no more items
will ever arrive, and "empty-try-again" otherwise. An empty queue has popped all the weight
that was pushed, so the two totals tell the two answers apart only against the capacity the
queue was sized to: it has drained when the pushed weight has reached the capacity and all of
it has been popped. -/
def BoundedQueue.try_pop {α : Type} (q : BoundedQueue α) : DequeueResult α × BoundedQueue α :=
  match q.items with
  | (a, w) :: rest =>
    (DequeueResult.gotItem a, { q with items := rest, poppedWeight := q.poppedWeight + w })
  | [] =>
    if q.pushedWeight = q.bound ∧ q.poppedWeight = q.pushedWeight then
      (DequeueResult.drained, q)
    else (DequeueResult.emptyTryAgain, q)

/-- A sequence of pushes. -/
def BoundedQueue.pushAll {α : Type} (q : BoundedQueue α) (xs : List (α × Nat)) :
    BoundedQueue α :=
  xs.foldl (fun acc x => acc.push x.1 x.2) q

/-- The answers of `n` pops in a row, whoever makes them. -/
def BoundedQueue.popN {α : Type} : Nat → BoundedQueue α → List (DequeueResult α)
  | 0, _ => []
  | n + 1, q => q.try_pop.1 :: BoundedQueue.popN n q.try_pop.2

/-- The queue `fileq` of `runAutogen` when the job starts: constructed with `indexed.size()`
and filled by the loop `fileq->push(move(i), 1)` for `i` from `0` to `indexed.size() - 1`. -/
def fileq (n : Nat) : BoundedQueue Nat :=
  (BoundedQueue.create n).pushAll ((List.range n).map (fun i => (i, 1)))

/-- The loops `for (auto result = fileq->try_pop(idx); !result.done(); ...)` of the workers of
`runAutogen`: `sched` names, pop by pop, the worker that makes the next `try_pop`; `idx` holds
the local variable `idx` of every worker, which a pop writes only when it returns an item; a
worker in `ended` has left its loop and makes no pop. The loop body runs whenever the answer
is not `done()`. The result lists the turns of the loop body as `(worker, idx)` and the
workers whose loop has ended. -/
def workerLoops : List Nat → BoundedQueue Nat → (Nat → Nat) → List Nat →
    List (Nat × Nat) × List Nat
  | [], _, _, ended => ([], ended)
  | w :: sched, q, idx, ended =>
    if w ∈ ended then workerLoops sched q idx ended
    else
      match q.try_pop with
      | (DequeueResult.gotItem i, q2) =>
        let r := workerLoops sched q2 (Function.update idx w i) ended
        ((w, i) :: r.1, r.2)
      | (DequeueResult.emptyTryAgain, q2) =>
        let r := workerLoops sched q2 idx ended
        ((w, idx w) :: r.1, r.2)
      | (DequeueResult.drained, q2) => workerLoops sched q2 idx (w :: ended)

/-- The queue `resultq` of `runAutogen` as constructed:
`make_shared<BlockingBoundedQueue<AutogenResult>>(indexed.size())`, with `n` the number
`indexed.size()`. -/
def resultq (n : Nat) : BoundedQueue AutogenResult :=
  BoundedQueue.create n

/-- The result queue once the workers have pushed: every worker leaves its loop once and then
calls `resultq->push(move(out), n)`; `order` lists the workers in the order of their pushes. -/
def resultqPushed (log : List PopEvent) (n : Nat) (order : List Nat) :
    BoundedQueue AutogenResult :=
  (resultq n).pushAll (order.map (fun w => (workerResult log w, (workerResult log w).n)))

/-! ## `findTyped` -/

/-- The enumeration `core::StrictLevel`, by the names `realmain.cc` uses. -/
inductive StrictLevel where
  | None
  | Internal
  | Ignore
  | False
  | True
  | Strict
  | Strong
  | Max
  | Autogenerated
  | Stdlib
deriving DecidableEq, Repr

/-- The arguments of a `core::Loc(file, begin, end)` for the file at hand. -/
structure Loc where
  beginPos : Int
  endPos : Int
deriving DecidableEq, Repr

/-- The value `string_view::npos`, the largest `size_t`. -/
def npos : Nat := 18446744073709551615

/-- The decrement `--start` of a `size_t`. -/
def decSizeT (start : Nat) : Nat := (start + 18446744073709551615) % 18446744073709551616

/-- The conversion of a `size_t` to `int`. -/
def toInt (x : Nat) : Int := Int.bmod x (2 ^ 32)

/-- How a run of `findTyped`, or of one of its loops, ends: with a value, or with a read
`source[i]` at an index `i` that is not below `source.size()`, or, in the model only, with the
fuel of a loop used up. -/
inductive Scan (α : Type) where
  | done (a : α)
  | outOfRange (i : Nat)
  | noFuel
deriving DecidableEq, Repr

/-- The test whether `pattern` occurs at the front of `s`. -/
def occursAt : List Char → List Char → Bool
  | _, [] => true
  | [], _ :: _ => false
  | c :: cs, p :: ps => c == p && occursAt cs ps

/-- The search of `string_view::find` in the rest `rest` of the source from position `pos` on. -/
def findFrom (pattern : List Char) : List Char → Nat → Nat
  | [], pos => if occursAt [] pattern then pos else npos
  | c :: rest, pos =>
    if occursAt (c :: rest) pattern then pos else findFrom pattern rest (pos + 1)

/-- The call `source.find(pattern, start)`: the first position from `start` on at which
`pattern` occurs, `npos` when there is none. -/
def find (source pattern : List Char) (start : Nat) : Nat :=
  if source.length < start then npos else findFrom pattern (source.drop start) start

/-- The loop `while (start >= 0 && source[start] != '#') --start;`. The test `start >= 0` on a
`size_t` always holds. -/
def backwardLoop (source : List Char) : Nat → Nat → Scan Nat
  | 0, _ => Scan.noFuel
  | fuel + 1, start =>
    match source[start]? with
    | none => Scan.outOfRange start
    | some c => if c = '#' then Scan.done start else backwardLoop source fuel (decSizeT start)

/-- The loop `while (end < source.size() && source[end] != '\n') ++end;`. -/
def forwardLoop (source : List Char) : Nat → Nat → Scan Nat
  | 0, _ => Scan.noFuel
  | fuel + 1, e =>
    if e < source.length then
      match source[e]? with
      | none => Scan.outOfRange e
      | some c => if c = '\n' then Scan.done e else forwardLoop source fuel (e + 1)
    else Scan.done e

/-- The function `findTyped` on the source of the file and its `originalSigil`. The loops get
more fuel than a source has positions. -/
def findTyped (source : List Char) (originalSigil : StrictLevel) : Scan Loc :=
  if originalSigil = StrictLevel.None then
    if 2 ≤ source.length && source[0]? == some '#' && source[1]? == some '!' then
      let newline : Int := toInt (find source ['\n'] 0)
      Scan.done ⟨newline + 1, newline + 1⟩
    else Scan.done ⟨0, 0⟩
  else
    let start := find source "typed:".toList 0
    if start = npos then Scan.done ⟨0, 0⟩
    else
      match backwardLoop source (source.length + 2) start with
      | Scan.noFuel => Scan.noFuel
      | Scan.outOfRange i => Scan.outOfRange i
      | Scan.done start =>
        match forwardLoop source (source.length + 1) start with
        | Scan.noFuel => Scan.noFuel
        | Scan.outOfRange i => Scan.outOfRange i
        | Scan.done e =>
          match source[e]? with
          | none => Scan.outOfRange e
          | some c => if c = '\n' then Scan.done ⟨start, e + 1⟩ else Scan.done ⟨start, e⟩

/-! ## A small run, used to evaluate the definitions -/

/-- Trees are numbers here: tree `1` is an RBI file, `generate` adds ten. -/
def exampleOps : AutogenOps Unit Nat Nat where
  isRBI _ t := t == 1
  generate _ t := t + 10
  tree pf := pf
  toString pf _ := if pf = 10 then "zero" else "two"
  toMsgpack pf _ v := if pf = 10 then "m0" else if v = 0 then "m2" else "m2v"
  classlist pf _ out := out ++ (if pf = 10 then ["B", "A"] else ["C", "A"])
  subclasses pf _ _ _ _ out :=
    out ++ (if pf = 10 then [("P", ["Y", "X"]), ("", ["Z"])] else [("P", ["X"]), ("Q", ["W"])])

/-- All four printers enabled. -/
def exampleOpts : Options :=
  { printAutogen := true, printAutogenMsgPack := true, printAutogenClasslist := true,
    printAutogenSubclasses := true }

/-- Three indexed files, the second one an RBI file. -/
def exampleIndexed : List Nat := [0, 1, 2]

/-- Two workers: worker 1 pops index 2, worker 0 pops index 0, worker 1 pops index 1. -/
def examplePops : List (Nat × Nat) := [(1, 2), (0, 0), (1, 1)]

/-! ## Theorems -/

/-! ### The sort -/

theorem fast_sort_insert_perm {α : Type} (comp : α → α → Bool) (a : α) (l : List α) :
    (fast_sort_insert comp a l).Perm (a :: l) := by
  induction l with
  | nil => simp [fast_sort_insert]
  | cons b l ih =>
    unfold fast_sort_insert
    split
    · exact List.Perm.refl _
    · exact ((List.Perm.cons b ih).trans (List.Perm.swap a b l))

theorem fast_sort_perm {α : Type} (comp : α → α → Bool) (l : List α) :
    (fast_sort comp l).Perm l := by
  induction l with
  | nil => simp [fast_sort]
  | cons a l ih =>
    unfold fast_sort
    exact (fast_sort_insert_perm comp a _).trans (List.Perm.cons a ih)

theorem fast_sort_insert_sorted {α : Type} {comp : α → α → Bool} (hc : StrictComp comp) (a : α)
    (l : List α) (hl : l.Pairwise (fun x y => comp y x = false)) :
    (fast_sort_insert comp a l).Pairwise (fun x y => comp y x = false) := by
  induction l with
  | nil => simp [fast_sort_insert]
  | cons b l ih =>
    rw [List.pairwise_cons] at hl
    unfold fast_sort_insert
    by_cases hab : comp a b = true
    · rw [if_pos hab]
      refine List.pairwise_cons.mpr ⟨?_, List.pairwise_cons.mpr hl⟩
      intro d hd
      rcases List.mem_cons.mp hd with rfl | hd
      · exact hc.asymm _ _ hab
      · cases hda : comp d a with
        | false => rfl
        | true =>
          have h1 := hc.trans d a b hda hab
          have h2 := hl.1 d hd
          rw [h1] at h2
          exact absurd h2 (by simp)
    · rw [if_neg hab]
      refine List.pairwise_cons.mpr ⟨?_, ih hl.2⟩
      intro d hd
      rcases List.mem_cons.mp ((fast_sort_insert_perm comp a l).mem_iff.mp hd) with rfl | hd
      · simpa using hab
      · exact hl.1 d hd

theorem fast_sort_sorted {α : Type} {comp : α → α → Bool} (hc : StrictComp comp) (l : List α) :
    (fast_sort comp l).Pairwise (fun x y => comp y x = false) := by
  induction l with
  | nil => simp [fast_sort]
  | cons a l ih =>
    unfold fast_sort
    exact fast_sort_insert_sorted hc a _ ih

theorem byIndex_strict : StrictComp byIndex where
  asymm := by
    intro a b h
    simp only [byIndex, decide_eq_true_eq, decide_eq_false_iff_not] at *
    omega
  trans := by
    intro a b c h1 h2
    simp only [byIndex, decide_eq_true_eq] at *
    omega

/-! ### The order of strings, `std::unique`, `std::set` and `std::map` -/

theorem stringLt_iff (a b : String) : stringLt a b = true ↔ a < b := by
  unfold stringLt
  rw [decide_eq_true_iff]
  exact String.lt_iff_toList_lt.symm

theorem stringLt_false_iff (a b : String) : stringLt a b = false ↔ b ≤ a := by
  rw [← not_lt, ← stringLt_iff]
  simp

theorem stringLt_strict : StrictComp stringLt where
  asymm := by
    intro a b h
    rw [stringLt_iff] at h
    rw [stringLt_false_iff]
    exact le_of_lt h
  trans := by
    intro a b c h1 h2
    rw [stringLt_iff] at *
    exact lt_trans h1 h2

/-- After `std::unique` a sorted range is strictly ascending and holds the same values. -/
theorem uniqueFrom_spec (l : List String) :
    ∀ (prev : String), (prev :: l).Pairwise (fun x y => x ≤ y) →
      (prev :: uniqueFrom prev l).Pairwise (fun x y => x < y) ∧
      ∀ x, x ∈ prev :: uniqueFrom prev l ↔ x ∈ prev :: l := by
  induction l with
  | nil => intro prev _; simp [uniqueFrom]
  | cons b rest ih =>
    intro prev hs
    rw [List.pairwise_cons] at hs
    unfold uniqueFrom
    by_cases hpb : prev = b
    · rw [if_pos hpb]
      have hs2 : (prev :: rest).Pairwise (fun x y => x ≤ y) := by
        rw [hpb]; exact hs.2
      obtain ⟨h1, h2⟩ := ih prev hs2
      refine ⟨h1, fun x => ?_⟩
      rw [h2 x, ← hpb]
      simp
    · rw [if_neg hpb]
      obtain ⟨h1, h2⟩ := ih b hs.2
      have hlt : prev < b := lt_of_le_of_ne (hs.1 b (List.mem_cons_self _ _)) hpb
      refine ⟨List.pairwise_cons.mpr ⟨?_, h1⟩, fun x => ?_⟩
      · intro y hy
        rcases List.mem_cons.mp ((h2 y).mp hy) with rfl | hy
        · exact hlt
        · exact lt_of_lt_of_le hlt ((List.pairwise_cons.mp hs.2).1 y hy)
      · rw [List.mem_cons, h2 x]
        simp

theorem unique_spec (l : List String) (hs : l.Pairwise (fun x y => x ≤ y)) :
    (unique l).Pairwise (fun x y => x < y) ∧ ∀ x, x ∈ unique l ↔ x ∈ l := by
  cases l with
  | nil => simp [unique]
  | cons a rest => exact uniqueFrom_spec rest a hs

theorem mem_setInsert (x y : String) (s : List String) :
    y ∈ setInsert x s ↔ y = x ∨ y ∈ s := by
  induction s with
  | nil => simp [setInsert]
  | cons z zs ih =>
    unfold setInsert
    by_cases h1 : stringLt x z = true
    · rw [if_pos h1]; simp
    · rw [if_neg h1]
      by_cases h2 : stringLt z x = true
      · rw [if_pos h2, List.mem_cons, ih, List.mem_cons]
        tauto
      · rw [if_neg h2]
        have e1 : z ≤ x := (stringLt_false_iff x z).mp (by simpa using h1)
        have e2 : x ≤ z := (stringLt_false_iff z x).mp (by simpa using h2)
        have e : x = z := le_antisymm e2 e1
        rw [e]
        simp

theorem setInsert_sorted (x : String) (s : List String)
    (hs : s.Pairwise (fun a b => a < b)) : (setInsert x s).Pairwise (fun a b => a < b) := by
  induction s with
  | nil => simp [setInsert]
  | cons z zs ih =>
    rw [List.pairwise_cons] at hs
    unfold setInsert
    by_cases h1 : stringLt x z = true
    · rw [if_pos h1]
      have hxz : x < z := (stringLt_iff x z).mp h1
      refine List.pairwise_cons.mpr ⟨?_, List.pairwise_cons.mpr hs⟩
      intro y hy
      rcases List.mem_cons.mp hy with rfl | hy
      · exact hxz
      · exact lt_trans hxz (hs.1 y hy)
    · rw [if_neg h1]
      by_cases h2 : stringLt z x = true
      · rw [if_pos h2]
        refine List.pairwise_cons.mpr ⟨?_, ih hs.2⟩
        intro y hy
        rcases (mem_setInsert x y zs).mp hy with rfl | hy
        · exact (stringLt_iff z y).mp h2
        · exact hs.1 y hy
      · rw [if_neg h2]
        exact List.pairwise_cons.mpr hs

theorem mem_setInsertRange (children : List String) :
    ∀ (s : List String) (y : String), y ∈ setInsertRange children s ↔ y ∈ children ∨ y ∈ s := by
  induction children with
  | nil => intro s y; simp [setInsertRange]
  | cons c cs ih =>
    intro s y
    have h := ih (setInsert c s) y
    unfold setInsertRange at h ⊢
    rw [List.foldl_cons, h, mem_setInsert, List.mem_cons]
    tauto

theorem setInsertRange_sorted (children : List String) :
    ∀ (s : List String), s.Pairwise (fun a b => a < b) →
      (setInsertRange children s).Pairwise (fun a b => a < b) := by
  induction children with
  | nil => intro s hs; simpa [setInsertRange] using hs
  | cons c cs ih =>
    intro s hs
    have h := ih (setInsert c s) (setInsert_sorted c s hs)
    unfold setInsertRange at h ⊢
    rw [List.foldl_cons]
    exact h

theorem mapInsertRange_keys (p : String) (children : List String) (m : SubclassMap)
    (q : String) :
    q ∈ (mapInsertRange p children m).map Prod.fst ↔ q = p ∨ q ∈ m.map Prod.fst := by
  induction m with
  | nil => simp [mapInsertRange]
  | cons e rest ih =>
    obtain ⟨k, cs⟩ := e
    unfold mapInsertRange
    by_cases h1 : stringLt p k = true
    · rw [if_pos h1]; simp
    · rw [if_neg h1]
      by_cases h2 : stringLt k p = true
      · rw [if_pos h2, List.map_cons, List.mem_cons, ih, List.map_cons, List.mem_cons]
        tauto
      · rw [if_neg h2]
        have e1 : k ≤ p := (stringLt_false_iff p k).mp (by simpa using h1)
        have e2 : p ≤ k := (stringLt_false_iff k p).mp (by simpa using h2)
        have e : p = k := le_antisymm e2 e1
        simp [e]

theorem mapInsertRange_children (p : String) (children : List String) (m : SubclassMap)
    (q c : String) :
    (∃ e ∈ mapInsertRange p children m, e.1 = q ∧ c ∈ e.2) ↔
      (q = p ∧ c ∈ children) ∨ ∃ e ∈ m, e.1 = q ∧ c ∈ e.2 := by
  induction m with
  | nil =>
    simp only [mapInsertRange, List.mem_singleton, exists_eq_left, mem_setInsertRange,
      List.not_mem_nil, or_false, false_and, exists_false]
    exact ⟨fun h => ⟨h.1.symm, h.2⟩, fun h => ⟨h.1.symm, h.2⟩⟩
  | cons e rest ih =>
    obtain ⟨k, cs⟩ := e
    unfold mapInsertRange
    by_cases h1 : stringLt p k = true
    · rw [if_pos h1]
      simp only [List.mem_cons, exists_eq_or_imp, mem_setInsertRange, List.not_mem_nil,
        or_false]
      rw [@eq_comm _ p q]
    · rw [if_neg h1]
      by_cases h2 : stringLt k p = true
      · rw [if_pos h2]
        simp only [List.mem_cons, exists_eq_or_imp]
        rw [ih]
        exact or_left_comm
      · rw [if_neg h2]
        have e1 : k ≤ p := (stringLt_false_iff p k).mp (by simpa using h1)
        have e2 : p ≤ k := (stringLt_false_iff k p).mp (by simpa using h2)
        have e : p = k := le_antisymm e2 e1
        simp only [List.mem_cons, exists_eq_or_imp, mem_setInsertRange, e]
        rw [@eq_comm _ q k]
        generalize (∃ a ∈ rest, a.1 = q ∧ c ∈ a.2) = X
        tauto

/-- The keys of the map are strictly ascending and so is every set of children. -/
theorem mapInsertRange_sorted (p : String) (children : List String) (m : SubclassMap)
    (hk : (m.map Prod.fst).Pairwise (fun a b => a < b))
    (hc : ∀ e ∈ m, e.2.Pairwise (fun a b => a < b)) :
    ((mapInsertRange p children m).map Prod.fst).Pairwise (fun a b => a < b) ∧
      ∀ e ∈ mapInsertRange p children m, e.2.Pairwise (fun a b => a < b) := by
  have hnew : (setInsertRange children []).Pairwise (fun a b => a < b) :=
    setInsertRange_sorted children [] List.Pairwise.nil
  induction m with
  | nil =>
    simp only [mapInsertRange, List.map_cons, List.map_nil, List.pairwise_cons,
      List.not_mem_nil, false_implies, implies_true, List.Pairwise.nil, and_self,
      List.mem_singleton, forall_eq, true_and]
    exact hnew
  | cons e rest ih =>
    obtain ⟨k, cs⟩ := e
    rw [List.map_cons, List.pairwise_cons] at hk
    have hcs : cs.Pairwise (fun a b => a < b) := hc (k, cs) (List.mem_cons_self _ _)
    have hrest : ∀ e ∈ rest, e.2.Pairwise (fun a b => a < b) :=
      fun e he => hc e (List.mem_cons_of_mem _ he)
    unfold mapInsertRange
    by_cases h1 : stringLt p k = true
    · rw [if_pos h1]
      have hpk : p < k := (stringLt_iff p k).mp h1
      constructor
      · simp only [List.map_cons, List.pairwise_cons]
        refine ⟨?_, hk⟩
        intro y hy
        rcases List.mem_cons.mp hy with rfl | hy
        · exact hpk
        · exact lt_trans hpk (hk.1 y hy)
      · intro e he
        rcases List.mem_cons.mp he with rfl | he
        · exact hnew
        · exact hc e he
    · rw [if_neg h1]
      by_cases h2 : stringLt k p = true
      · rw [if_pos h2]
        obtain ⟨ih1, ih2⟩ := ih hk.2 hrest
        constructor
        · rw [List.map_cons, List.pairwise_cons]
          refine ⟨?_, ih1⟩
          intro y hy
          rcases (mapInsertRange_keys p children rest y).mp hy with rfl | hy
          · exact (stringLt_iff k y).mp h2
          · exact hk.1 y hy
        · intro e he
          rcases List.mem_cons.mp he with rfl | he
          · exact hcs
          · exact ih2 e he
      · rw [if_neg h2]
        constructor
        · rw [List.map_cons, List.pairwise_cons]
          exact hk
        · intro e he
          rcases List.mem_cons.mp he with rfl | he
          · exact setInsertRange_sorted children cs hcs
          · exact hrest e he

/-- The merge loops visit the entries of all the maps one after another. -/
theorem mergedSubclasses_eq_foldl (merged : List (Nat × Serialized)) :
    ∀ (acc : SubclassMap), merged.foldl mergeSubclassesStep acc
      = (merged.flatMap (fun el => el.2.subclasses)).foldl
          (fun acc pc => if pc.1.isEmpty then acc else mapInsertRange pc.1 pc.2 acc) acc := by
  induction merged with
  | nil => intro acc; rfl
  | cons el rest ih =>
    intro acc
    rw [List.foldl_cons, ih, List.flatMap_cons, List.foldl_append]
    rfl

theorem foldl_insert_keys (subs : SubclassMap) :
    ∀ (acc : SubclassMap) (q : String),
      q ∈ (subs.foldl
          (fun acc pc => if pc.1.isEmpty then acc else mapInsertRange pc.1 pc.2 acc) acc).map
            Prod.fst ↔
        (q ≠ "" ∧ ∃ pc ∈ subs, pc.1 = q) ∨ q ∈ acc.map Prod.fst := by
  induction subs with
  | nil => intro acc q; simp
  | cons pc rest ih =>
    intro acc q
    rw [List.foldl_cons, ih]
    by_cases hempty : pc.1.isEmpty = true
    · have hp : pc.1 = "" := (String.isEmpty_iff pc.1).mp hempty
      rw [if_pos hempty]
      simp only [List.mem_cons, exists_eq_or_imp]
      constructor
      · rintro (⟨hq, h⟩ | h)
        · exact Or.inl ⟨hq, Or.inr h⟩
        · exact Or.inr h
      · rintro (⟨hq, h | h⟩ | h)
        · exact absurd (h.symm.trans hp) hq
        · exact Or.inl ⟨hq, h⟩
        · exact Or.inr h
    · have hp : pc.1 ≠ "" := fun h => hempty ((String.isEmpty_iff pc.1).mpr h)
      rw [if_neg hempty, mapInsertRange_keys]
      simp only [List.mem_cons, exists_eq_or_imp]
      constructor
      · rintro (⟨hq, h⟩ | h | h)
        · exact Or.inl ⟨hq, Or.inr h⟩
        · exact Or.inl ⟨h ▸ hp, Or.inl h.symm⟩
        · exact Or.inr h
      · rintro (⟨hq, h | h⟩ | h)
        · exact Or.inr (Or.inl h.symm)
        · exact Or.inl ⟨hq, h⟩
        · exact Or.inr (Or.inr h)

theorem foldl_insert_children (subs : SubclassMap) :
    ∀ (acc : SubclassMap) (q c : String),
      (∃ e ∈ subs.foldl
          (fun acc pc => if pc.1.isEmpty then acc else mapInsertRange pc.1 pc.2 acc) acc,
          e.1 = q ∧ c ∈ e.2) ↔
        (q ≠ "" ∧ ∃ pc ∈ subs, pc.1 = q ∧ c ∈ pc.2) ∨ ∃ e ∈ acc, e.1 = q ∧ c ∈ e.2 := by
  induction subs with
  | nil => intro acc q c; simp
  | cons pc rest ih =>
    intro acc q c
    rw [List.foldl_cons, ih]
    by_cases hempty : pc.1.isEmpty = true
    · have hp : pc.1 = "" := (String.isEmpty_iff pc.1).mp hempty
      rw [if_pos hempty]
      simp only [List.mem_cons, exists_eq_or_imp]
      constructor
      · rintro (⟨hq, h⟩ | h)
        · exact Or.inl ⟨hq, Or.inr h⟩
        · exact Or.inr h
      · rintro (⟨hq, h | h⟩ | h)
        · exact absurd (h.1.symm.trans hp) hq
        · exact Or.inl ⟨hq, h⟩
        · exact Or.inr h
    · have hp : pc.1 ≠ "" := fun h => hempty ((String.isEmpty_iff pc.1).mpr h)
      rw [if_neg hempty, mapInsertRange_children]
      simp only [List.mem_cons, exists_eq_or_imp]
      constructor
      · rintro (⟨hq, h⟩ | h | h)
        · exact Or.inl ⟨hq, Or.inr h⟩
        · exact Or.inl ⟨h.1 ▸ hp, Or.inl ⟨h.1.symm, h.2⟩⟩
        · exact Or.inr h
      · rintro (⟨hq, h | h⟩ | h)
        · exact Or.inr (Or.inl ⟨h.1.symm, h.2⟩)
        · exact Or.inl ⟨hq, h⟩
        · exact Or.inr (Or.inr h)

theorem foldl_insert_sorted (subs : SubclassMap) :
    ∀ (acc : SubclassMap), (acc.map Prod.fst).Pairwise (fun a b => a < b) →
      (∀ e ∈ acc, e.2.Pairwise (fun a b => a < b)) →
      ((subs.foldl
          (fun acc pc => if pc.1.isEmpty then acc else mapInsertRange pc.1 pc.2 acc) acc).map
            Prod.fst).Pairwise (fun a b => a < b) ∧
        ∀ e ∈ subs.foldl
          (fun acc pc => if pc.1.isEmpty then acc else mapInsertRange pc.1 pc.2 acc) acc,
          e.2.Pairwise (fun a b => a < b) := by
  induction subs with
  | nil => intro acc hk hc; exact ⟨hk, hc⟩
  | cons pc rest ih =>
    intro acc hk hc
    rw [List.foldl_cons]
    by_cases hempty : pc.1.isEmpty = true
    · rw [if_pos hempty]
      exact ih acc hk hc
    · rw [if_neg hempty]
      obtain ⟨h1, h2⟩ := mapInsertRange_sorted pc.1 pc.2 acc hk hc
      exact ih _ h1 h2

theorem mergedSubclasses_sorted (merged : List (Nat × Serialized)) :
    ((mergedSubclasses merged).map Prod.fst).Pairwise (fun a b => a < b) ∧
      ∀ e ∈ mergedSubclasses merged, e.2.Pairwise (fun a b => a < b) := by
  unfold mergedSubclasses
  rw [mergedSubclasses_eq_foldl]
  exact foldl_insert_sorted _ [] List.Pairwise.nil (fun e he => absurd he (List.not_mem_nil e))

/-! ### The workers -/

section WorkerLemmas

variable {Ctx ParsedFile PF : Type}

/-- As long as no index is popped twice, every turn sees the tree that `indexed` held when the
job started. -/
theorem runWorkers_log_aux (ops : AutogenOps Ctx ParsedFile PF) (ctx : Ctx) (opts : Options)
    (indexed : List ParsedFile) (pops : List (Nat × Nat)) :
    ∀ (cur : List ParsedFile), (pops.map Prod.snd).Nodup →
      (∀ p ∈ pops, cur[p.2]? = indexed[p.2]?) →
      (runWorkers ops ctx opts pops cur).1.map PopEvent.print
        = pops.map (fun p => fileOutput ops ctx opts indexed p.2) ∧
      (runWorkers ops ctx opts pops cur).1.map PopEvent.worker = pops.map Prod.fst := by
  induction pops with
  | nil => intro cur _ _; simp [runWorkers]
  | cons p rest ih =>
    intro cur hnd hagree
    obtain ⟨w, idx⟩ := p
    simp only [List.map_cons, List.nodup_cons, List.mem_map, not_exists, not_and] at hnd
    have hhead : cur[idx]? = indexed[idx]? := hagree (w, idx) (List.mem_cons_self _ _)
    have hrest : ∀ q ∈ rest, cur[q.2]? = indexed[q.2]? :=
      fun q hq => hagree q (List.mem_cons_of_mem _ hq)
    unfold runWorkers
    cases hcur : cur[idx]? with
    | none =>
      have h := ih cur hnd.2 hrest
      simp only [List.map_cons, h.1, h.2]
      simp [PopEvent.print, fileOutput, ← hhead, hcur]
    | some tree =>
      have hrest2 : ∀ q ∈ rest,
          (cur.set idx (autogenOne ops ctx opts tree).2)[q.2]? = indexed[q.2]? := by
        intro q hq
        have hne : idx ≠ q.2 := fun he => hnd.1 q hq he.symm
        rw [List.getElem?_set_ne hne]
        exact hrest q hq
      have h := ih _ hnd.2 hrest2
      simp only [List.map_cons, h.1, h.2]
      simp [PopEvent.print, fileOutput, ← hhead, hcur]

theorem runWorkers_prints (ops : AutogenOps Ctx ParsedFile PF) (ctx : Ctx) (opts : Options)
    (indexed : List ParsedFile) (pops : List (Nat × Nat)) (hnd : (pops.map Prod.snd).Nodup) :
    (runWorkers ops ctx opts pops indexed).1.filterMap PopEvent.print
      = (pops.map Prod.snd).filterMap (fileOutput ops ctx opts indexed) := by
  have h := (runWorkers_log_aux ops ctx opts indexed pops indexed hnd (fun _ _ => rfl)).1
  have h2 : ∀ (l : List PopEvent),
      l.filterMap PopEvent.print = (l.map PopEvent.print).filterMap id := by
    intro l; rw [List.filterMap_map]; rfl
  rw [h2, h, List.filterMap_map, List.filterMap_map]
  rfl

theorem filter_worker_succ_perm (log : List PopEvent) (W : Nat) :
    (log.filter (fun e => decide (e.worker < W)) ++
      log.filter (fun e => decide (e.worker = W))).Perm
      (log.filter (fun e => decide (e.worker < W + 1))) := by
  induction log with
  | nil => simp
  | cons e log ihl =>
    simp only [List.filter_cons]
    by_cases h1 : e.worker < W
    · have h2 : e.worker ≠ W := by omega
      have h3 : e.worker < W + 1 := by omega
      simp only [h1, h2, h3, decide_True, decide_False, if_true, if_false, Bool.false_eq_true,
        List.cons_append]
      exact List.Perm.cons e ihl
    · by_cases h2 : e.worker = W
      · have h3 : e.worker < W + 1 := by omega
        have h4 : ¬ W < W := by omega
        have h5 : W < W + 1 := by omega
        simp only [h2, h4, h5, decide_True, decide_False, if_true, if_false,
          Bool.false_eq_true]
        exact List.perm_middle.trans (List.Perm.cons e ihl)
      · have h3 : ¬ e.worker < W + 1 := by omega
        simp only [h1, h2, h3, decide_False, if_false, Bool.false_eq_true]
        exact ihl

/-- The batches of the workers `0 .. W-1`, one after the other, hold the turns of the log that
belong to one of these workers, in some order. -/
theorem batches_perm_aux (log : List PopEvent) (W : Nat) :
    ((List.range W).flatMap (fun w => (workerResult log w).prints)).Perm
      ((log.filter (fun e => decide (e.worker < W))).filterMap PopEvent.print) := by
  induction W with
  | zero => simp
  | succ W ih =>
    rw [List.range_succ, List.flatMap_append, List.flatMap_singleton]
    refine (List.Perm.append ih (List.Perm.refl _)).trans ?_
    simp only [workerResult]
    rw [← List.filterMap_append]
    exact List.Perm.filterMap _ (filter_worker_succ_perm log W)

theorem fileOutput_fst (ops : AutogenOps Ctx ParsedFile PF) (ctx : Ctx) (opts : Options)
    (indexed : List ParsedFile) (i : Nat) (p : Nat × Serialized)
    (h : fileOutput ops ctx opts indexed i = some p) : p.1 = i := by
  unfold fileOutput at h
  cases hi : indexed[i]? with
  | none => simp [hi] at h
  | some tree =>
    simp only [hi, Option.some_bind] at h
    cases ho : (autogenOne ops ctx opts tree).1 with
    | none => simp [ho] at h
    | some a =>
      simp only [ho, Option.map_some', Option.some.injEq] at h
      rw [← h]

/-- A list sorted by index that holds the same pairs as the in-order list is that list. -/
theorem sorted_perm_unique (f : Nat → Option (Nat × Serialized))
    (hf : ∀ i p, f i = some p → p.1 = i) (n : Nat) (s : List (Nat × Serialized))
    (hperm : s.Perm ((List.range n).filterMap f))
    (hs : s.Pairwise (fun x y => byIndex y x = false)) :
    s = (List.range n).filterMap f := by
  let r : Nat × Serialized → Nat × Serialized → Prop := fun a b => a.1 < b.1 ∨ a = b
  haveI : IsAntisymm (Nat × Serialized) r := ⟨by
    intro a b hab hba
    rcases hab with h1 | h1
    · rcases hba with h2 | h2
      · omega
      · exact h2.symm
    · exact h1⟩
  have hL : ((List.range n).filterMap f).Pairwise r := by
    refine List.Pairwise.filterMap f ?_ (List.pairwise_lt_range n)
    intro a a2 haa b hb b2 hb2
    have e1 := hf a b hb
    have e2 := hf a2 b2 hb2
    left
    omega
  have hS : s.Pairwise r := by
    refine List.Pairwise.imp_of_mem ?_ hs
    intro x y hx hy hxy
    simp only [byIndex, decide_eq_false_iff_not] at hxy
    by_cases hlt : x.1 < y.1
    · exact Or.inl hlt
    · right
      obtain ⟨i, _, hi⟩ := List.mem_filterMap.mp (hperm.mem_iff.mp hx)
      obtain ⟨j, _, hj⟩ := List.mem_filterMap.mp (hperm.mem_iff.mp hy)
      have e1 := hf i x hi
      have e2 := hf j y hj
      have hij : i = j := by omega
      rw [hij, hj] at hi
      exact (Option.some.inj hi).symm
  exact List.eq_of_perm_of_sorted hperm hS hL

/-- The batches of the workers, in whatever order they arrive, hold one pair for every file that
is not an RBI file. -/
theorem arrived_perm_inOrder (ops : AutogenOps Ctx ParsedFile PF) (ctx : Ctx) (opts : Options)
    (indexed : List ParsedFile) (workers : Nat) (pops : List (Nat × Nat)) (arrival : List Nat)
    (hpops : (pops.map Prod.snd).Perm (List.range indexed.length))
    (hworkers : ∀ p ∈ pops, p.1 < workers)
    (harrival : arrival.Perm (List.range workers)) :
    (arrival.flatMap
      (fun w => (workerResult (runWorkers ops ctx opts pops indexed).1 w).prints)).Perm
      (inOrderPrints ops ctx opts indexed) := by
  have hnd : (pops.map Prod.snd).Nodup := hpops.nodup_iff.mpr (List.nodup_range _)
  have hw := (runWorkers_log_aux ops ctx opts indexed pops indexed hnd (fun _ _ => rfl)).2
  have hall : ∀ e ∈ (runWorkers ops ctx opts pops indexed).1, e.worker < workers := by
    intro e he
    have h1 : e.worker ∈ (runWorkers ops ctx opts pops indexed).1.map PopEvent.worker :=
      List.mem_map_of_mem _ he
    rw [hw] at h1
    obtain ⟨p, hp, hpe⟩ := List.mem_map.mp h1
    rw [← hpe]
    exact hworkers p hp
  have hfilter : (runWorkers ops ctx opts pops indexed).1.filter
      (fun e => decide (e.worker < workers)) = (runWorkers ops ctx opts pops indexed).1 :=
    List.filter_eq_self.mpr (fun e he => decide_eq_true (hall e he))
  have h1 := batches_perm_aux (runWorkers ops ctx opts pops indexed).1 workers
  rw [hfilter, runWorkers_prints ops ctx opts indexed pops hnd] at h1
  exact ((List.Perm.flatMap_right _ harrival).trans h1).trans (List.Perm.filterMap _ hpops)

/-- A single worker that pops `0 .. N-1` in ascending order produces the in-order list. -/
theorem singleWorker_prints (ops : AutogenOps Ctx ParsedFile PF) (ctx : Ctx) (opts : Options)
    (indexed : List ParsedFile) :
    (workerResult (runWorkers ops ctx opts (singleWorkerPops indexed.length) indexed).1 0).prints
      = inOrderPrints ops ctx opts indexed := by
  have hsnd : (singleWorkerPops indexed.length).map Prod.snd = List.range indexed.length := by
    simp [singleWorkerPops, Function.comp_def]
  have hnd : ((singleWorkerPops indexed.length).map Prod.snd).Nodup := by
    rw [hsnd]; exact List.nodup_range _
  have hw := (runWorkers_log_aux ops ctx opts indexed _ indexed hnd (fun _ _ => rfl)).2
  have hall : ∀ e ∈ (runWorkers ops ctx opts (singleWorkerPops indexed.length) indexed).1,
      decide (e.worker = 0) = true := by
    intro e he
    have h1 : e.worker ∈
        (runWorkers ops ctx opts (singleWorkerPops indexed.length) indexed).1.map
          PopEvent.worker := List.mem_map_of_mem _ he
    rw [hw] at h1
    obtain ⟨p, hp, hpe⟩ := List.mem_map.mp h1
    obtain ⟨i, _, hi⟩ := List.mem_map.mp hp
    rw [← hpe, ← hi]
    rfl
  simp only [workerResult]
  rw [List.filter_eq_self.mpr hall, runWorkers_prints ops ctx opts indexed _ hnd, hsnd]
  rfl

/-- The sorted `merged` is the in-order list, whatever the distribution and the arrival order. -/
theorem mergeResults_eq_inOrder (ops : AutogenOps Ctx ParsedFile PF) (ctx : Ctx)
    (opts : Options) (indexed : List ParsedFile) (workers : Nat) (pops : List (Nat × Nat))
    (arrival : List Nat)
    (hpops : (pops.map Prod.snd).Perm (List.range indexed.length))
    (hworkers : ∀ p ∈ pops, p.1 < workers)
    (harrival : arrival.Perm (List.range workers)) :
    mergeResults (runWorkers ops ctx opts pops indexed).1 arrival
      = inOrderPrints ops ctx opts indexed := by
  unfold mergeResults
  exact sorted_perm_unique _ (fileOutput_fst ops ctx opts indexed) _ _
    ((fast_sort_perm _ _).trans
      (arrived_perm_inOrder ops ctx opts indexed workers pops arrival hpops hworkers harrival))
    (fast_sort_sorted byIndex_strict _)

/-- C1 (order restoration): for every distribution `pops` of the indices `0 .. N-1` among the
workers and every arrival order of the batches, `merged` after the sort by index is the list
a single worker produces that processes `0 .. N-1` in ascending order, which is the in-order
list with one pair per file that is not an RBI file. -/
theorem runAutogen_order_restoration (ops : AutogenOps Ctx ParsedFile PF) (ctx : Ctx)
    (opts : Options) (indexed : List ParsedFile) (workers : Nat) (pops : List (Nat × Nat))
    (arrival : List Nat)
    (hpops : (pops.map Prod.snd).Perm (List.range indexed.length))
    (hworkers : ∀ p ∈ pops, p.1 < workers)
    (harrival : arrival.Perm (List.range workers)) :
    mergeResults (runWorkers ops ctx opts pops indexed).1 arrival
      = (workerResult
          (runWorkers ops ctx opts (singleWorkerPops indexed.length) indexed).1 0).prints
    ∧ mergeResults (runWorkers ops ctx opts pops indexed).1 arrival
      = inOrderPrints ops ctx opts indexed := by
  have h := mergeResults_eq_inOrder ops ctx opts indexed workers pops arrival hpops hworkers
    harrival
  exact ⟨h.trans (singleWorker_prints ops ctx opts indexed).symm, h⟩

theorem runAutogen_order_restoration_witness :
    ((examplePops.map Prod.snd).Perm (List.range exampleIndexed.length)
      ∧ (∀ p ∈ examplePops, p.1 < 2) ∧ [1, 0].Perm (List.range 2))
    ∧ (mergeResults (runWorkers exampleOps () exampleOpts examplePops exampleIndexed).1 [1, 0]
        = (workerResult (runWorkers exampleOps () exampleOpts
            (singleWorkerPops exampleIndexed.length) exampleIndexed).1 0).prints
      ∧ mergeResults (runWorkers exampleOps () exampleOpts examplePops exampleIndexed).1 [1, 0]
        = inOrderPrints exampleOps () exampleOpts exampleIndexed)
    ∧ mergeResults (runWorkers exampleOps () exampleOpts examplePops exampleIndexed).1 [1, 0]
        = [(0, ⟨"zero", "m0", ["B", "A"], [("P", ["Y", "X"]), ("", ["Z"])]⟩),
           (2, ⟨"two", "m2", ["C", "A"], [("P", ["X"]), ("Q", ["W"])]⟩)] :=
  ⟨⟨by decide, by decide, by decide⟩,
   runAutogen_order_restoration exampleOps () exampleOpts exampleIndexed 2 examplePops [1, 0]
     (by decide) (by decide) (by decide),
   by decide⟩

/-- C2 (determinism): two executions of `runAutogen` on the same indexed files and options
that differ only in the distribution of the indices among the workers and in the arrival order
of the batches print the same sequence of strings: the same Autogen and AutogenMsgPack strings
in the same order, the same classlist text and the same subclasses text. -/
theorem runAutogen_deterministic (ops : AutogenOps Ctx ParsedFile PF) (ctx : Ctx)
    (opts : Options) (indexed : List ParsedFile) (workers : Nat)
    (pops₁ pops₂ : List (Nat × Nat)) (arrival₁ arrival₂ : List Nat)
    (hpops₁ : (pops₁.map Prod.snd).Perm (List.range indexed.length))
    (hworkers₁ : ∀ p ∈ pops₁, p.1 < workers)
    (harrival₁ : arrival₁.Perm (List.range workers))
    (hpops₂ : (pops₂.map Prod.snd).Perm (List.range indexed.length))
    (hworkers₂ : ∀ p ∈ pops₂, p.1 < workers)
    (harrival₂ : arrival₂.Perm (List.range workers)) :
    (runAutogen ops ctx opts pops₁ arrival₁ indexed).1
      = (runAutogen ops ctx opts pops₂ arrival₂ indexed).1 := by
  simp only [runAutogen]
  rw [mergeResults_eq_inOrder ops ctx opts indexed workers pops₁ arrival₁ hpops₁ hworkers₁
      harrival₁,
    mergeResults_eq_inOrder ops ctx opts indexed workers pops₂ arrival₂ hpops₂ hworkers₂
      harrival₂]

theorem runAutogen_deterministic_witness :
    (runAutogen exampleOps () exampleOpts examplePops [1, 0] exampleIndexed).1
      = (runAutogen exampleOps () exampleOpts [(0, 1), (0, 0), (1, 2)] [0, 1] exampleIndexed).1
    ∧ (runAutogen exampleOps () exampleOpts examplePops [1, 0] exampleIndexed).1
      = [Printed.Autogen "zero", Printed.AutogenMsgPack "m0", Printed.Autogen "two",
         Printed.AutogenMsgPack "m2", Printed.AutogenClasslist "A\nB\nC\n",
         Printed.AutogenSubclasses "P\n X\n Y\nQ\n W\n"] :=
  ⟨runAutogen_deterministic exampleOps () exampleOpts exampleIndexed 2 examplePops
     [(0, 1), (0, 0), (1, 2)] [1, 0] [0, 1]
     (by decide) (by decide) (by decide) (by decide) (by decide) (by decide),
   by decide⟩

end WorkerLemmas

/-! ### What `runAutogen` prints -/

theorem printElem_no_classlist (opts : Options) (merged : List (Nat × Serialized)) :
    (merged.flatMap (printElem opts)).filterMap Printed.classlistText = [] := by
  induction merged with
  | nil => rfl
  | cons el rest ih =>
    rw [List.flatMap_cons, List.filterMap_append, ih]
    unfold printElem
    cases opts.printAutogen <;> cases opts.printAutogenMsgPack <;> rfl

theorem printElem_no_subclasses (opts : Options) (merged : List (Nat × Serialized)) :
    (merged.flatMap (printElem opts)).filterMap Printed.subclassesText = [] := by
  induction merged with
  | nil => rfl
  | cons el rest ih =>
    rw [List.flatMap_cons, List.filterMap_append, ih]
    unfold printElem
    cases opts.printAutogen <;> cases opts.printAutogenMsgPack <;> rfl

theorem printMerged_classlistText (opts : Options) (merged : List (Nat × Serialized)) :
    (printMerged opts merged).filterMap Printed.classlistText
      = if opts.printAutogenClasslist then [fmtJoinLn (mergedClasslist merged)] else [] := by
  unfold printMerged
  rw [List.filterMap_append, List.filterMap_append, printElem_no_classlist]
  cases opts.printAutogenClasslist <;> cases opts.printAutogenSubclasses <;> rfl

theorem printMerged_subclassesText (opts : Options) (merged : List (Nat × Serialized)) :
    (printMerged opts merged).filterMap Printed.subclassesText
      = if opts.printAutogenSubclasses then
          [fmtJoinLn (mergedSubclasseslist (mergedSubclasses merged))] else [] := by
  unfold printMerged
  rw [List.filterMap_append, List.filterMap_append, printElem_no_subclasses]
  cases opts.printAutogenClasslist <;> cases opts.printAutogenSubclasses <;> rfl

/-- C5, as stated, fails: a parent name that is a key of a file's `subclasses` map need not be
a key of `mergedSubclasses`. The empty parent name is recorded by the file below and is left
out of the merged map. -/
theorem mergedSubclasses_drops_empty_parent :
    (∃ el ∈ [((0 : Nat), (⟨"", "", [], [("", ["Z"]), ("P", ["X"])]⟩ : Serialized))],
        ∃ pc ∈ el.2.subclasses, pc.1 = "")
    ∧ "" ∉ (mergedSubclasses
        [(0, ⟨"", "", [], [("", ["Z"]), ("P", ["X"])]⟩)]).map Prod.fst
    ∧ mergedSubclasses [(0, ⟨"", "", [], [("", ["Z"]), ("P", ["X"])]⟩)] = [("P", ["X"])] := by
  decide

/-- C5, amended: `mergedSubclasses` is the per-key union of the per-file `subclasses` maps over
the parent names that are not empty. Its keys are the non-empty parent names that are a key of
some file's map, each once; the children of a key `p` are the children some file records for
`p`; nothing is recorded under the empty parent name. -/
theorem mergedSubclasses_union (merged : List (Nat × Serialized)) :
    (∀ p, p ∈ (mergedSubclasses merged).map Prod.fst ↔
      p ≠ "" ∧ ∃ el ∈ merged, ∃ pc ∈ el.2.subclasses, pc.1 = p)
    ∧ (∀ p c, (∃ e ∈ mergedSubclasses merged, e.1 = p ∧ c ∈ e.2) ↔
      p ≠ "" ∧ ∃ el ∈ merged, ∃ pc ∈ el.2.subclasses, pc.1 = p ∧ c ∈ pc.2)
    ∧ ((mergedSubclasses merged).map Prod.fst).Nodup := by
  refine ⟨fun p => ?_, fun p c => ?_, ?_⟩
  · unfold mergedSubclasses
    rw [mergedSubclasses_eq_foldl, foldl_insert_keys]
    simp only [List.map_nil, List.not_mem_nil, or_false, List.mem_flatMap]
    constructor
    · rintro ⟨hp, pc, ⟨el, hel, hpc⟩, h⟩
      exact ⟨hp, el, hel, pc, hpc, h⟩
    · rintro ⟨hp, el, hel, pc, hpc, h⟩
      exact ⟨hp, pc, ⟨el, hel, hpc⟩, h⟩
  · unfold mergedSubclasses
    rw [mergedSubclasses_eq_foldl, foldl_insert_children]
    simp only [List.not_mem_nil, false_and, exists_false, or_false, List.mem_flatMap]
    constructor
    · rintro ⟨hp, pc, ⟨el, hel, hpc⟩, h⟩
      exact ⟨hp, el, hel, pc, hpc, h⟩
    · rintro ⟨hp, el, hel, pc, hpc, h⟩
      exact ⟨hp, pc, ⟨el, hel, hpc⟩, h⟩
  · exact (mergedSubclasses_sorted merged).1.imp (fun h => ne_of_lt h)

/-- C6: the subclasses text is made of the lines of `mergedSubclasses` in its order: the parent
names are strictly ascending, every parent line is followed by the lines of its children,
strictly ascending, each one a space followed by the child name; so no parent and no pair of
a parent and a child occurs twice. -/
theorem subclasses_text_sorted (opts : Options) (merged : List (Nat × Serialized)) :
    ((mergedSubclasses merged).map Prod.fst).Pairwise (fun a b => stringLt a b = true)
    ∧ (∀ e ∈ mergedSubclasses merged, e.2.Pairwise (fun a b => stringLt a b = true))
    ∧ ((mergedSubclasses merged).map Prod.fst).Nodup
    ∧ (∀ e ∈ mergedSubclasses merged, e.2.Nodup)
    ∧ mergedSubclasseslist (mergedSubclasses merged)
        = (mergedSubclasses merged).flatMap (fun e => e.1 :: e.2.map (fun child => " " ++ child))
    ∧ (printMerged opts merged).filterMap Printed.subclassesText
        = if opts.printAutogenSubclasses then
            [String.intercalate "\n" (mergedSubclasseslist (mergedSubclasses merged)) ++ "\n"]
          else [] := by
  obtain ⟨h1, h2⟩ := mergedSubclasses_sorted merged
  refine ⟨h1.imp (fun h => (stringLt_iff _ _).mpr h),
    fun e he => (h2 e he).imp (fun h => (stringLt_iff _ _).mpr h),
    h1.imp (fun h => ne_of_lt h), fun e he => (h2 e he).imp (fun h => ne_of_lt h), rfl,
    printMerged_subclassesText opts merged⟩

/-- C7: the classlist that is printed is the union of the per-file classlists as a sorted set:
the names are strictly ascending, every name of some file's classlist is among them, and every
one of them is in some file's classlist. -/
theorem classlist_sorted_union (opts : Options) (merged : List (Nat × Serialized)) :
    (mergedClasslist merged).Pairwise (fun a b => stringLt a b = true)
    ∧ (∀ name, name ∈ mergedClasslist merged ↔ ∃ el ∈ merged, name ∈ el.2.classlist)
    ∧ (printMerged opts merged).filterMap Printed.classlistText
        = if opts.printAutogenClasslist then
            [String.intercalate "\n" (mergedClasslist merged) ++ "\n"] else [] := by
  have hsorted : (fast_sort stringLt (merged.flatMap (fun el => el.2.classlist))).Pairwise
      (fun x y => x ≤ y) :=
    (fast_sort_sorted stringLt_strict _).imp (fun h => (stringLt_false_iff _ _).mp h)
  obtain ⟨h1, h2⟩ := unique_spec _ hsorted
  refine ⟨h1.imp (fun h => (stringLt_iff _ _).mpr h), fun name => ?_,
    printMerged_classlistText opts merged⟩
  unfold mergedClasslist
  rw [h2, (fast_sort_perm _ _).mem_iff, List.mem_flatMap]

/-! ### `realmain` -/

theorem realmain_events (opts : Options) (run : Run) :
    (realmain opts run).events = [Event.createInitialGlobalState] ++ dslPluginEvents opts ++
      (if opts.runLSP then [Event.runLSP] else pipelineEvents opts run) := by
  unfold realmain
  simp only []
  split <;> rfl

theorem realmain_returnCode (opts : Options) (run : Run) :
    (realmain opts run).returnCode =
      if (!opts.someCounters.isEmpty && opts.enableCounters) = true then 1
      else if run.hadCriticalError = true then 10
      else if 0 < run.totalErrors ∧ opts.supressNonCriticalErrors = false then 1
      else 0 := by
  unfold realmain
  simp only []
  by_cases h1 : (!opts.someCounters.isEmpty && opts.enableCounters) = true
  · simp [h1]
  · by_cases h2 : run.hadCriticalError = true
    · simp [h1, h2]
    · by_cases h3 : 0 < run.totalErrors
      · cases h4 : opts.supressNonCriticalErrors <;> simp [h1, h2, h3, h4]
      · simp [h1, h2, h3]

/-- C3: `realmain` returns a nonzero status whenever a critical error is reported and whenever
`totalErrors() > 0` and non-critical errors are not suppressed; it returns `0` only when there
was no critical error and no unsuppressed diagnostic. -/
theorem realmain_nonzero_exit (opts : Options) (run : Run) :
    (run.hadCriticalError = true → (realmain opts run).returnCode ≠ 0)
    ∧ (0 < run.totalErrors → opts.supressNonCriticalErrors = false →
        (realmain opts run).returnCode ≠ 0)
    ∧ ((realmain opts run).returnCode = 0 →
        run.hadCriticalError = false ∧
          (run.totalErrors = 0 ∨ opts.supressNonCriticalErrors = true)) := by
  rw [realmain_returnCode]
  by_cases h1 : (!opts.someCounters.isEmpty && opts.enableCounters) = true
  · simp [h1]
  · by_cases h2 : run.hadCriticalError = true
    · simp [h1, h2]
    · by_cases h3 : 0 < run.totalErrors
      · cases h4 : opts.supressNonCriticalErrors <;> simp [h1, h2, h3, h4]
      · have h5 : run.totalErrors = 0 := by omega
        simp [h1, h2, h5]

/-- C4, as stated, fails: with `--counters` and `--counter` both given `realmain` returns at
the early `return 1`, also in a run in which a critical error occurred. -/
theorem realmain_critical_exit_early_return :
    (realmain { someCounters := ["types.input.files"], enableCounters := true }
        { hadCriticalError := true }).returnCode = 1
    ∧ (realmain { someCounters := ["types.input.files"], enableCounters := true }
        { hadCriticalError := true }).returnCode ≠ 10 := by
  decide

/-- C4, amended: in every run that does not end at the early return for `--counters` given
with `--counter`, the status is `10` when a critical error occurred; on every path `10` is
returned only when a critical error occurred; a run without a critical error and with
unsuppressed diagnostics returns `1`; the early return gives `1`. -/
theorem realmain_critical_exit (opts : Options) (run : Run) :
    ((!opts.someCounters.isEmpty && opts.enableCounters) = false →
        run.hadCriticalError = true → (realmain opts run).returnCode = 10)
    ∧ ((realmain opts run).returnCode = 10 → run.hadCriticalError = true)
    ∧ (run.hadCriticalError = false → 0 < run.totalErrors →
        opts.supressNonCriticalErrors = false → (realmain opts run).returnCode = 1)
    ∧ ((!opts.someCounters.isEmpty && opts.enableCounters) = true →
        (realmain opts run).returnCode = 1) := by
  rw [realmain_returnCode]
  by_cases h1 : (!opts.someCounters.isEmpty && opts.enableCounters) = true
  · simp [h1]
  · by_cases h2 : run.hadCriticalError = true
    · simp [h1, h2]
    · by_cases h3 : 0 < run.totalErrors
      · cases h4 : opts.supressNonCriticalErrors <;> simp [h1, h2, h3, h4]
      · simp [h1, h2, h3]

theorem dslPluginEvents_no_phase (opts : Options) :
    (dslPluginEvents opts).filter Event.isPhase = [] := by
  unfold dslPluginEvents
  induction opts.dslPluginTriggers with
  | nil => rfl
  | cons _ rest ih =>
    rw [List.flatMap_cons, List.filter_append, ih]
    rfl

theorem realmain_phases (opts : Options) (run : Run) (hbatch : opts.runLSP = false) :
    (realmain opts run).events.filter Event.isPhase =
      if runningUnderAutogen opts run then
        [Event.reserveFiles, Event.index, Event.name, Event.runConstantResolution,
         Event.runAutogen]
      else [Event.reserveFiles, Event.index, Event.resolve, Event.typecheck] := by
  rw [realmain_events, hbatch, List.filter_append, List.filter_append,
    dslPluginEvents_no_phase]
  unfold pipelineEvents
  cases opts.inlineInput.isEmpty <;> cases runningUnderAutogen opts run <;> rfl

/-- C8: in batch mode `realmain` runs `reserveFiles`, then `index`, and then one of two tails:
`name`, constant resolution and `runAutogen` when `runningUnderAutogen` is set, which is the
case whenever one of the four autogen printers is enabled, and `resolve`, `typecheck`
otherwise. `typecheck` is not run in autogen mode; `name` and `runAutogen` are not run outside
it. -/
theorem realmain_phase_order (opts : Options) (run : Run) (hbatch : opts.runLSP = false) :
    ((realmain opts run).events.filter Event.isPhase =
      if runningUnderAutogen opts run then
        [Event.reserveFiles, Event.index, Event.name, Event.runConstantResolution,
         Event.runAutogen]
      else [Event.reserveFiles, Event.index, Event.resolve, Event.typecheck])
    ∧ ((opts.printAutogen || opts.printAutogenMsgPack || opts.printAutogenClasslist ||
          opts.printAutogenSubclasses) = true → runningUnderAutogen opts run = true)
    ∧ (runningUnderAutogen opts run = true → Event.typecheck ∉ (realmain opts run).events)
    ∧ (runningUnderAutogen opts run = false →
        Event.name ∉ (realmain opts run).events ∧
        Event.runAutogen ∉ (realmain opts run).events) := by
  have h := realmain_phases opts run hbatch
  have hmem : ∀ e : Event, e.isPhase = true →
      (e ∈ (realmain opts run).events ↔
        e ∈ (realmain opts run).events.filter Event.isPhase) := by
    intro e he
    rw [List.mem_filter]
    exact ⟨fun hm => ⟨hm, he⟩, fun hm => hm.1⟩
  refine ⟨h, ?_, ?_, ?_⟩
  · intro hp
    unfold runningUnderAutogen
    rw [if_pos hp]
  · intro hr
    rw [hmem Event.typecheck rfl, h, hr]
    decide
  · intro hr
    rw [hmem Event.name rfl, hmem Event.runAutogen rfl, h, hr]
    decide

theorem realmain_phase_order_witness :
    ({ printAutogenClasslist := true, dslPluginTriggers := [("a", "b")] } : Options).runLSP
      = false
    ∧ (realmain { printAutogenClasslist := true, dslPluginTriggers := [("a", "b")] }
        {}).events.filter Event.isPhase
      = [Event.reserveFiles, Event.index, Event.name, Event.runConstantResolution,
         Event.runAutogen]
    ∧ (realmain { inlineInput := "x" } {}).events.filter Event.isPhase
      = [Event.reserveFiles, Event.index, Event.resolve, Event.typecheck] :=
  ⟨rfl,
   (realmain_phase_order { printAutogenClasslist := true, dslPluginTriggers := [("a", "b")] }
      {} rfl).1,
   by decide⟩

theorem liveTokens_cons (live : List Table) (e : Event) (es : List Event) :
    liveTokens live (e :: es) = liveTokens (stepToken live e) es := rfl

/-- The check `disciplined` is sound: at every step of a checked list the tokens that the step
needs are live, and `runAutogen` starts with none. -/
theorem disciplined_sound (pre : List Event) :
    ∀ (live : List Table) (e : Event) (post : List Event),
      disciplined live (pre ++ e :: post) = true →
      (∀ t ∈ e.mutates, t ∈ liveTokens live pre) ∧
        (e = Event.runAutogen → liveTokens live pre = []) := by
  induction pre with
  | nil =>
    intro live e post h
    simp only [List.nil_append, disciplined, Bool.and_eq_true, List.all_eq_true,
      decide_eq_true_eq, Bool.or_eq_true, List.isEmpty_iff] at h
    refine ⟨h.1.1, fun he => ?_⟩
    rcases h.1.2 with h2 | h2
    · exact absurd he h2
    · exact h2
  | cons a pre ih =>
    intro live e post h
    simp only [List.cons_append, disciplined, Bool.and_eq_true] at h
    rw [liveTokens_cons]
    exact ih _ e post h.2

theorem disciplined_dslPlugins (triggers : List (String × String)) (rest : List Event) :
    disciplined []
      (triggers.flatMap
        (fun _ => [Event.unfreeze Table.Name, Event.addDslPlugin, Event.release Table.Name])
        ++ rest) = disciplined [] rest := by
  induction triggers with
  | nil => rfl
  | cons _ tl ih =>
    rw [List.flatMap_cons, List.append_assoc]
    simp only [List.cons_append, List.nil_append, disciplined, Event.mutates, stepToken]
    simpa using ih

theorem realmain_disciplined (opts : Options) (run : Run) :
    disciplined [] (realmain opts run).events = true := by
  have h0 : ∀ rest : List Event,
      disciplined [] (Event.createInitialGlobalState :: rest) = disciplined [] rest := by
    intro rest
    simp [disciplined, Event.mutates, stepToken]
  rw [realmain_events, List.append_assoc, List.singleton_append, h0]
  unfold dslPluginEvents
  rw [disciplined_dslPlugins]
  unfold pipelineEvents
  cases opts.runLSP <;> cases opts.inlineInput.isEmpty <;>
    cases runningUnderAutogen opts run <;> decide

/-- C10: `realmain` takes no step that mutates a sub-table of the global state without a live
unfreeze token for it: `addDslPlugin` runs under a live `UnfreezeNameTable`, the `enterFile`
of the inline input under a live `UnfreezeFileTable`, `runConstantResolution` under a live
`UnfreezeNameTable` and a live `UnfreezeSymbolTable`; and when `runAutogen` starts every token
that `realmain` opened has been released. -/
theorem realmain_freeze_discipline (opts : Options) (run : Run) (pre : List Event)
    (e : Event) (post : List Event) (hsplit : (realmain opts run).events = pre ++ e :: post) :
    (e = Event.addDslPlugin → Table.Name ∈ liveTokens [] pre)
    ∧ (e = Event.enterFile → Table.File ∈ liveTokens [] pre)
    ∧ (e = Event.runConstantResolution →
        Table.Name ∈ liveTokens [] pre ∧ Table.Symbol ∈ liveTokens [] pre)
    ∧ (e = Event.runAutogen → liveTokens [] pre = []) := by
  have h := realmain_disciplined opts run
  rw [hsplit] at h
  obtain ⟨h1, h2⟩ := disciplined_sound pre [] e post h
  refine ⟨?_, ?_, ?_, h2⟩
  · intro he
    exact h1 Table.Name (by rw [he]; simp [Event.mutates])
  · intro he
    exact h1 Table.File (by rw [he]; simp [Event.mutates])
  · intro he
    exact ⟨h1 Table.Name (by rw [he]; simp [Event.mutates]),
      h1 Table.Symbol (by rw [he]; simp [Event.mutates])⟩

theorem realmain_freeze_discipline_witness :
    (realmain { printAutogen := true, inlineInput := "x", dslPluginTriggers := [("a", "b")] }
        {}).events
      = [Event.createInitialGlobalState, Event.unfreeze Table.Name, Event.addDslPlugin,
          Event.release Table.Name, Event.reserveFiles, Event.unfreeze Table.File,
          Event.enterFile, Event.release Table.File, Event.index, Event.retainGlobalState,
          Event.name, Event.unfreeze Table.Name, Event.unfreeze Table.Symbol]
        ++ Event.runConstantResolution
          :: [Event.release Table.Symbol, Event.release Table.Name, Event.runAutogen]
    ∧ (Table.Name ∈ liveTokens []
          [Event.createInitialGlobalState, Event.unfreeze Table.Name, Event.addDslPlugin,
            Event.release Table.Name, Event.reserveFiles, Event.unfreeze Table.File,
            Event.enterFile, Event.release Table.File, Event.index, Event.retainGlobalState,
            Event.name, Event.unfreeze Table.Name, Event.unfreeze Table.Symbol]
        ∧ Table.Symbol ∈ liveTokens []
          [Event.createInitialGlobalState, Event.unfreeze Table.Name, Event.addDslPlugin,
            Event.release Table.Name, Event.reserveFiles, Event.unfreeze Table.File,
            Event.enterFile, Event.release Table.File, Event.index, Event.retainGlobalState,
            Event.name, Event.unfreeze Table.Name, Event.unfreeze Table.Symbol]) :=
  ⟨by decide,
   (realmain_freeze_discipline
      { printAutogen := true, inlineInput := "x", dslPluginTriggers := [("a", "b")] } {}
      [Event.createInitialGlobalState, Event.unfreeze Table.Name, Event.addDslPlugin,
        Event.release Table.Name, Event.reserveFiles, Event.unfreeze Table.File,
        Event.enterFile, Event.release Table.File, Event.index, Event.retainGlobalState,
        Event.name, Event.unfreeze Table.Name, Event.unfreeze Table.Symbol]
      Event.runConstantResolution
      [Event.release Table.Symbol, Event.release Table.Name, Event.runAutogen]
      (by decide)).2.2.1 rfl⟩

/-! ### The bounded work queue -/

theorem pushAll_eq {α : Type} (xs : List (α × Nat)) :
    ∀ (q : BoundedQueue α), q.pushAll xs =
      { bound := q.bound, items := q.items ++ xs,
        pushedWeight := q.pushedWeight + (xs.map Prod.snd).sum,
        poppedWeight := q.poppedWeight } := by
  induction xs with
  | nil => intro q; simp [BoundedQueue.pushAll]
  | cons x rest ih =>
    intro q
    have h := ih (q.push x.1 x.2)
    unfold BoundedQueue.pushAll at h ⊢
    rw [List.foldl_cons, h]
    simp [BoundedQueue.push, Nat.add_assoc]

/-- A queue whose pushed weight has reached its capacity hands out its items in order and then
answers "drained" to every pop. -/
theorem popN_full {α : Type} (m : Nat) :
    ∀ (q : BoundedQueue α), q.pushedWeight = q.bound →
      q.poppedWeight + (q.items.map Prod.snd).sum = q.pushedWeight →
      BoundedQueue.popN m q = ((q.items.map Prod.fst).take m).map DequeueResult.gotItem ++
        List.replicate (m - q.items.length) DequeueResult.drained := by
  induction m with
  | zero => intro q _ _; simp [BoundedQueue.popN]
  | succ m ih =>
    intro q hfull hsum
    obtain ⟨bound, items, pushed, popped⟩ := q
    cases items with
    | nil =>
      simp only [List.map_nil, List.sum_nil, Nat.add_zero] at hsum hfull
      subst hsum
      subst hfull
      have h := ih ⟨popped, [], popped, popped⟩ rfl rfl
      simp only [List.map_nil, List.take_nil, List.nil_append, List.length_nil,
        Nat.sub_zero] at h
      simp only [BoundedQueue.popN, BoundedQueue.try_pop, and_self, if_true, h]
      simp [List.replicate_succ]
    | cons x rest =>
      obtain ⟨a, w⟩ := x
      simp only [List.map_cons, List.sum_cons] at hsum
      have h := ih ⟨bound, rest, pushed, popped + w⟩ hfull (by simp only []; omega)
      simp only [BoundedQueue.popN, BoundedQueue.try_pop, h]
      simp

/-- Over a queue whose pushed weight has reached its capacity the loops of the workers take
one turn per queued item, in the order of the queue, and a worker that is scheduled more often
than there are items leaves its loop. -/
theorem workerLoops_full (sched : List Nat) :
    ∀ (q : BoundedQueue Nat) (idx : Nat → Nat) (ended : List Nat),
      q.pushedWeight = q.bound →
      q.poppedWeight + (q.items.map Prod.snd).sum = q.pushedWeight →
      (workerLoops sched q idx ended).1.map Prod.snd
          = (q.items.map Prod.fst).take (workerLoops sched q idx ended).1.length
        ∧ (workerLoops sched q idx ended).1.length ≤ q.items.length
        ∧ (∀ w ∈ ended, w ∈ (workerLoops sched q idx ended).2)
        ∧ (∀ w, q.items.length < sched.count w → w ∈ (workerLoops sched q idx ended).2)
        ∧ ((∃ w ∈ (workerLoops sched q idx ended).2, w ∉ ended) →
            (workerLoops sched q idx ended).1.length = q.items.length) := by
  induction sched with
  | nil =>
    intro q idx ended _ _
    refine ⟨by simp [workerLoops], by simp [workerLoops], fun w hw => hw, ?_, ?_⟩
    · intro w hw
      simp at hw
    · rintro ⟨w, hw, hnw⟩
      exact absurd hw hnw
  | cons v sched ih =>
    intro q idx ended hfull hsum
    by_cases hv : v ∈ ended
    · have hstep : workerLoops (v :: sched) q idx ended = workerLoops sched q idx ended := by
        simp [workerLoops, hv]
      rw [hstep]
      obtain ⟨h1, h2, h3, h4, h5⟩ := ih q idx ended hfull hsum
      refine ⟨h1, h2, h3, ?_, h5⟩
      intro w hw
      by_cases hwv : v = w
      · exact h3 w (hwv ▸ hv)
      · rw [List.count_cons_of_ne (Ne.symm hwv)] at hw
        exact h4 w hw
    · obtain ⟨bound, items, pushed, popped⟩ := q
      cases items with
      | nil =>
        simp only [List.map_nil, List.sum_nil, Nat.add_zero] at hsum hfull
        subst hsum
        subst hfull
        have hstep : workerLoops (v :: sched) ⟨popped, [], popped, popped⟩ idx ended
            = workerLoops sched ⟨popped, [], popped, popped⟩ idx (v :: ended) := by
          simp [workerLoops, hv, BoundedQueue.try_pop]
        rw [hstep]
        obtain ⟨h1, h2, h3, h4, _⟩ := ih ⟨popped, [], popped, popped⟩ idx (v :: ended) rfl rfl
        refine ⟨h1, h2, fun w hw => h3 w (List.mem_cons_of_mem _ hw), ?_, ?_⟩
        · intro w hw
          by_cases hwv : v = w
          · exact h3 w (hwv ▸ List.mem_cons_self _ _)
          · rw [List.count_cons_of_ne (Ne.symm hwv)] at hw
            exact h4 w hw
        · intro _
          exact Nat.le_antisymm h2 (Nat.zero_le _)
      | cons x rest =>
        obtain ⟨a, wt⟩ := x
        simp only [List.map_cons, List.sum_cons] at hsum
        have hstep : workerLoops (v :: sched) ⟨bound, (a, wt) :: rest, pushed, popped⟩ idx ended
            = ((v, a) :: (workerLoops sched ⟨bound, rest, pushed, popped + wt⟩
                  (Function.update idx v a) ended).1,
                (workerLoops sched ⟨bound, rest, pushed, popped + wt⟩
                  (Function.update idx v a) ended).2) := by
          simp [workerLoops, hv, BoundedQueue.try_pop]
        rw [hstep]
        obtain ⟨h1, h2, h3, h4, h5⟩ := ih ⟨bound, rest, pushed, popped + wt⟩
          (Function.update idx v a) ended hfull (by simp only []; omega)
        simp only [] at h1 h2 h4 h5
        refine ⟨?_, ?_, h3, ?_, ?_⟩
        · simp only [List.map_cons, List.length_cons, List.take_succ_cons, h1]
        · simp only [List.length_cons]
          omega
        · intro w hw
          simp only [List.length_cons] at hw
          have hc : (v :: sched).count w ≤ sched.count w + 1 := by
            by_cases hwv : v = w
            · rw [hwv, List.count_cons_self]
            · rw [List.count_cons_of_ne (Ne.symm hwv)]
              omega
          exact h4 w (by omega)
        · intro hex
          simp only [List.length_cons]
          rw [h5 hex]

/-- C9, as stated, fails: one item of weight `1` pushed into a queue of capacity `2`, with no
further pushes, is popped once, and the next pop reports "empty-try-again", not "drained". -/
theorem boundedQueue_no_drain_below_capacity :
    BoundedQueue.popN 3 ((BoundedQueue.create 2).pushAll [("a", 1)])
      = [DequeueResult.gotItem "a", DequeueResult.emptyTryAgain, DequeueResult.emptyTryAgain] := by
  decide

theorem fileq_eq (n : Nat) :
    fileq n = { bound := n, items := (List.range n).map (fun i => (i, 1)),
                pushedWeight := n, poppedWeight := 0 } := by
  unfold fileq
  rw [pushAll_eq]
  simp [BoundedQueue.create, Function.comp_def]

/-- C9, amended: a bounded work queue into which exactly `K` items are pushed whose total
weight is the capacity of the queue, with no further pushes, answers the first `K` pops with
the `K` items, each once, and every later pop, whoever makes it, with "drained". For
`runAutogen`: the `N` indices pushed with weight `1` into the file queue of capacity `N` are
handed out one per turn of a worker's loop, each once, in whatever order the workers pop; a
worker that pops after that leaves its loop, and once some loop has ended all `N` indices have
been handed out. -/
theorem boundedQueue_drain {α : Type} (bound : Nat) (xs : List (α × Nat))
    (hweight : (xs.map Prod.snd).sum = bound) (m n : Nat) (sched : List Nat)
    (idx : Nat → Nat) :
    BoundedQueue.popN m ((BoundedQueue.create bound).pushAll xs)
      = ((xs.map Prod.fst).take m).map DequeueResult.gotItem ++
        List.replicate (m - xs.length) DequeueResult.drained
    ∧ BoundedQueue.popN m (fileq n)
      = ((List.range n).take m).map DequeueResult.gotItem ++
        List.replicate (m - n) DequeueResult.drained
    ∧ (workerLoops sched (fileq n) idx []).1.map Prod.snd
        = List.range (workerLoops sched (fileq n) idx []).1.length
    ∧ (workerLoops sched (fileq n) idx []).1.length ≤ n
    ∧ (∀ w, n < sched.count w → w ∈ (workerLoops sched (fileq n) idx []).2)
    ∧ ((workerLoops sched (fileq n) idx []).2 ≠ [] →
        (workerLoops sched (fileq n) idx []).1.map Prod.snd = List.range n) := by
  have hgen : BoundedQueue.popN m ((BoundedQueue.create bound).pushAll xs)
        = ((xs.map Prod.fst).take m).map DequeueResult.gotItem ++
          List.replicate (m - xs.length) DequeueResult.drained := by
    rw [pushAll_eq]
    have h := popN_full m
      (⟨bound, [] ++ xs, 0 + (xs.map Prod.snd).sum, 0⟩ : BoundedQueue α)
      (by simp only [Nat.zero_add]; exact hweight) (by simp)
    simpa [BoundedQueue.create] using h
  have hfile : BoundedQueue.popN m (fileq n)
      = ((List.range n).take m).map DequeueResult.gotItem ++
        List.replicate (m - n) DequeueResult.drained := by
    rw [fileq_eq]
    have h := popN_full m
      (⟨n, (List.range n).map (fun i => (i, 1)), n, 0⟩ : BoundedQueue Nat) rfl
      (by simp [Function.comp_def])
    simpa [Function.comp_def] using h
  obtain ⟨h1, h2, _, h4, h5⟩ := workerLoops_full sched
    (⟨n, (List.range n).map (fun i => (i, 1)), n, 0⟩ : BoundedQueue Nat) idx [] rfl
    (by simp [Function.comp_def])
  rw [← fileq_eq] at h1 h2 h4 h5
  have hitems : (fileq n).items = (List.range n).map (fun i => (i, 1)) := by
    rw [fileq_eq]
  have hfst : ((List.range n).map (fun i => ((i, 1) : Nat × Nat))).map Prod.fst
      = List.range n := by
    simp [Function.comp_def]
  simp only [hitems, hfst, List.length_map, List.length_range] at h1 h2 h4 h5
  have htake : ∀ k, k ≤ n → (List.range n).take k = List.range k := by
    intro k hk
    rw [List.take_range, Nat.min_eq_left hk]
  refine ⟨hgen, hfile, ?_, h2, h4, ?_⟩
  · rw [h1, htake _ h2]
  · intro hne
    obtain ⟨w, hw⟩ := List.exists_mem_of_ne_nil _ hne
    have hlen := h5 ⟨w, hw, List.not_mem_nil w⟩
    rw [h1, hlen, htake n (Nat.le_refl n)]

theorem boundedQueue_drain_witness :
    (([("a", 2), ("b", 0), ("c", 1)] : List (String × Nat)).map Prod.snd).sum = 3
    ∧ BoundedQueue.popN 5
        ((BoundedQueue.create 3).pushAll [("a", 2), ("b", 0), ("c", 1)])
      = [DequeueResult.gotItem "a", DequeueResult.gotItem "b", DequeueResult.gotItem "c",
         DequeueResult.drained, DequeueResult.drained]
    ∧ BoundedQueue.popN 5 (fileq 3)
      = [DequeueResult.gotItem 0, DequeueResult.gotItem 1, DequeueResult.gotItem 2,
         DequeueResult.drained, DequeueResult.drained]
    ∧ workerLoops [1, 0, 1, 1, 0, 1, 0] (fileq 3) (fun _ => 0) []
      = ([(1, 0), (0, 1), (1, 2)], [0, 1]) :=
  ⟨by decide,
   (boundedQueue_drain 3 [("a", 2), ("b", 0), ("c", 1)] (by decide) 5 3 [] (fun _ => 0)).1,
   by decide, by decide⟩

/-! ### `realmain`: the cache store and the metrics status -/

theorem realmain_kvstore_eq (opts : Options) (run : Run) :
    (realmain opts run).kvstore =
      if opts.cacheDir.isEmpty then none
      else some ⟨run.fullVersionString, opts.cacheDir,
        if opts.skipDSLPasses then "nodsl" else "default"⟩ := by
  unfold realmain
  simp only []
  cases opts.cacheDir.isEmpty <;>
    cases (!opts.someCounters.isEmpty && opts.enableCounters) <;> rfl

/-- C11: `realmain` creates the cache store exactly when `cacheDir` is not empty; the store is
then keyed with the full version string, the directory, and the namespace `"nodsl"` when
`skipDSLPasses` is set and `"default"` otherwise; two runs that differ in `skipDSLPasses` never
use the same namespace. -/
theorem realmain_kvstore (opts opts2 : Options) (run run2 : Run) :
    ((realmain opts run).kvstore.isSome = true ↔ opts.cacheDir ≠ "")
    ∧ (∀ kv ∈ (realmain opts run).kvstore,
        kv.version = run.fullVersionString ∧ kv.path = opts.cacheDir ∧
          kv.flavor = if opts.skipDSLPasses then "nodsl" else "default")
    ∧ (opts.skipDSLPasses ≠ opts2.skipDSLPasses →
        ∀ kv ∈ (realmain opts run).kvstore, ∀ kv2 ∈ (realmain opts2 run2).kvstore,
          kv.flavor ≠ kv2.flavor) := by
  have hflavor : ∀ (o : Options) (r : Run), ∀ kv ∈ (realmain o r).kvstore,
      kv.version = r.fullVersionString ∧ kv.path = o.cacheDir ∧
        kv.flavor = if o.skipDSLPasses then "nodsl" else "default" := by
    intro o r kv hkv
    rw [realmain_kvstore_eq] at hkv
    cases he : o.cacheDir.isEmpty with
    | true => simp [he] at hkv
    | false =>
      simp only [he, Bool.false_eq_true, if_false, Option.mem_def, Option.some.injEq] at hkv
      rw [← hkv]
      exact ⟨rfl, rfl, rfl⟩
  refine ⟨?_, hflavor opts run, ?_⟩
  · have hiff := String.isEmpty_iff opts.cacheDir
    rw [realmain_kvstore_eq]
    cases he : opts.cacheDir.isEmpty with
    | true =>
      have h := hiff.mp he
      simp [h]
    | false =>
      have h : opts.cacheDir ≠ "" := fun h => by
        rw [hiff.mpr h] at he
        exact Bool.noConfusion he
      simp [h]
  · intro hne kv hkv kv2 hkv2
    rw [(hflavor opts run kv hkv).2.2, (hflavor opts2 run2 kv2 hkv2).2.2]
    cases h1 : opts.skipDSLPasses <;> cases h2 : opts2.skipDSLPasses
    · exact absurd (h1.trans h2.symm) hne
    · decide
    · decide
    · exact absurd (h1.trans h2.symm) hne

/-- C17 on the code: the status is chosen while `returnCode` still holds the `0` of the start of
`realmain`, so `"Failure"` is never written; a run with one ordinary diagnostic and no critical
error records `"Success"` and returns `1`. -/
theorem realmain_metrics_status_before_returnCode (opts : Options) (run : Run) :
    (realmain opts run).metricsStatus ≠ some "Failure"
    ∧ (realmain { metricsFile := "metrics.json" } { totalErrors := 1 }).metricsStatus
        = some "Success"
    ∧ (realmain { metricsFile := "metrics.json" } { totalErrors := 1 }).returnCode = 1 := by
  refine ⟨?_, by decide, by decide⟩
  unfold realmain
  simp only []
  cases (!opts.someCounters.isEmpty && opts.enableCounters) <;>
    cases (!opts.metricsFile.isEmpty) <;> cases run.hadCriticalError <;> simp

/-! ### The result queue of `runAutogen` -/

theorem workerResult_n (log : List PopEvent) (w : Nat) :
    (workerResult log w).n = (log.map PopEvent.worker).count w := by
  simp only [workerResult]
  induction log with
  | nil => rfl
  | cons e rest ih =>
    rw [List.filter_cons, List.map_cons]
    by_cases h : e.worker = w
    · simp only [h, decide_True, if_true, List.length_cons, List.count_cons_self, ih]
    · simp only [h, decide_False, Bool.false_eq_true, if_false]
      rw [List.count_cons_of_ne (Ne.symm h), ih]

theorem length_filter_lt_succ (l : List Nat) (W : Nat) :
    (l.filter (fun x => decide (x < W + 1))).length
      = (l.filter (fun x => decide (x < W))).length + l.count W := by
  induction l with
  | nil => rfl
  | cons x rest ih =>
    simp only [List.filter_cons]
    by_cases h1 : x < W
    · have h2 : x < W + 1 := by omega
      have h3 : W ≠ x := by omega
      simp only [h1, h2, decide_True, if_true, List.length_cons, ih,
        List.count_cons_of_ne h3]
      omega
    · by_cases h2 : x = W
      · have h3 : W < W + 1 := by omega
        have h4 : ¬ W < W := by omega
        simp only [h2, h3, h4, decide_True, decide_False, if_true, Bool.false_eq_true,
          if_false, List.length_cons, List.count_cons_self]
        omega
      · have h3 : ¬ x < W + 1 := by omega
        simp only [h1, h3, decide_False, Bool.false_eq_true, if_false, ih,
          List.count_cons_of_ne (Ne.symm h2)]

/-- The numbers of pops of the workers `0 .. W-1` add up to the number of pops. -/
theorem sum_count_range (l : List Nat) (W : Nat) (h : ∀ x ∈ l, x < W) :
    ((List.range W).map (fun w => l.count w)).sum = l.length := by
  have haux : ∀ V, ((List.range V).map (fun w => l.count w)).sum
      = (l.filter (fun x => decide (x < V))).length := by
    intro V
    induction V with
    | zero => simp
    | succ V ih =>
      rw [List.range_succ, List.map_append, List.sum_append, ih, length_filter_lt_succ]
      simp
  rw [haux, List.filter_eq_self.mpr (fun x hx => decide_eq_true (h x hx))]

section ResultQueue

variable {Ctx ParsedFile PF : Type}

/-- The weights with which the workers push their batches add up to `indexed.size()`. -/
theorem pushed_weights_sum (ops : AutogenOps Ctx ParsedFile PF) (ctx : Ctx) (opts : Options)
    (indexed : List ParsedFile) (workers : Nat) (pops : List (Nat × Nat)) (order : List Nat)
    (hpops : (pops.map Prod.snd).Perm (List.range indexed.length))
    (hworkers : ∀ p ∈ pops, p.1 < workers)
    (horder : order.Perm (List.range workers)) :
    (∀ w, (workerResult (runWorkers ops ctx opts pops indexed).1 w).n
        = (pops.map Prod.fst).count w)
    ∧ (order.map (fun w => (workerResult (runWorkers ops ctx opts pops indexed).1 w).n)).sum
        = indexed.length := by
  have hnd : (pops.map Prod.snd).Nodup := hpops.nodup_iff.mpr (List.nodup_range _)
  have hw := (runWorkers_log_aux ops ctx opts indexed pops indexed hnd (fun _ => fun _ => rfl)).2
  have hn : ∀ w, (workerResult (runWorkers ops ctx opts pops indexed).1 w).n
      = (pops.map Prod.fst).count w := by
    intro w
    rw [workerResult_n, hw]
  refine ⟨hn, ?_⟩
  have hlen : (pops.map Prod.fst).length = indexed.length := by
    have h := hpops.length_eq
    simpa using h
  have hlt : ∀ x ∈ pops.map Prod.fst, x < workers := by
    intro x hx
    obtain ⟨p, hp, rfl⟩ := List.mem_map.mp hx
    exact hworkers p hp
  rw [(horder.map _).sum_eq]
  simp only [hn]
  rw [sum_count_range _ workers hlt, hlen]

theorem resultqPushed_eq (log : List PopEvent) (n : Nat) (order : List Nat) :
    resultqPushed log n order =
      { bound := n,
        items := order.map (fun w => (workerResult log w, (workerResult log w).n)),
        pushedWeight := (order.map (fun w => (workerResult log w).n)).sum,
        poppedWeight := 0 } := by
  unfold resultqPushed resultq
  rw [pushAll_eq]
  simp [BoundedQueue.create, Function.comp_def]

/-- C13: for every distribution of the indices `0 .. N-1` among the workers, every worker
pushes one batch onto the result queue, with the number of indices it popped as weight, RBI
files included and `0` for a worker that popped nothing; the pushed weights add up to
`N = indexed.size()`, the bound the result queue was constructed with. -/
theorem resultq_pushed_weight (ops : AutogenOps Ctx ParsedFile PF) (ctx : Ctx)
    (opts : Options) (indexed : List ParsedFile) (workers : Nat) (pops : List (Nat × Nat))
    (order : List Nat)
    (hpops : (pops.map Prod.snd).Perm (List.range indexed.length))
    (hworkers : ∀ p ∈ pops, p.1 < workers)
    (horder : order.Perm (List.range workers)) :
    (resultqPushed (runWorkers ops ctx opts pops indexed).1 indexed.length order).items
      = order.map (fun w => (workerResult (runWorkers ops ctx opts pops indexed).1 w,
          (pops.map Prod.fst).count w))
    ∧ (resultqPushed (runWorkers ops ctx opts pops indexed).1 indexed.length order).items.length
      = workers
    ∧ (resultqPushed (runWorkers ops ctx opts pops indexed).1 indexed.length
        order).pushedWeight = indexed.length
    ∧ (resultqPushed (runWorkers ops ctx opts pops indexed).1 indexed.length
        order).pushedWeight
      = (resultq indexed.length).bound := by
  obtain ⟨hn, hsum⟩ := pushed_weights_sum ops ctx opts indexed workers pops order hpops
    hworkers horder
  have hlen : order.length = workers := by
    have h2 := horder.length_eq
    simpa using h2
  rw [resultqPushed_eq]
  refine ⟨?_, by simp [hlen], hsum, hsum⟩
  simp only [hn]

theorem resultq_pushed_weight_witness :
    ((examplePops.map Prod.snd).Perm (List.range exampleIndexed.length)
      ∧ (∀ p ∈ examplePops, p.1 < 3) ∧ [2, 0, 1].Perm (List.range 3))
    ∧ (resultqPushed (runWorkers exampleOps () exampleOpts examplePops exampleIndexed).1
        exampleIndexed.length [2, 0, 1]).pushedWeight = exampleIndexed.length
    ∧ (resultqPushed (runWorkers exampleOps () exampleOpts examplePops exampleIndexed).1
        exampleIndexed.length [2, 0, 1]).items.map Prod.snd = [0, 1, 2] :=
  ⟨⟨by decide, by decide, by decide⟩,
   (resultq_pushed_weight exampleOps () exampleOpts exampleIndexed 3 examplePops [2, 0, 1]
      (by decide) (by decide) (by decide)).2.2.1,
   by decide⟩

end ResultQueue

/-! ### `findTyped` -/

theorem occursAt_length (pattern : List Char) :
    ∀ (s : List Char), occursAt s pattern = true → pattern.length ≤ s.length := by
  induction pattern with
  | nil => intro s _; simp
  | cons p ps ih =>
    intro s h
    cases s with
    | nil => simp [occursAt] at h
    | cons c cs =>
      simp only [occursAt, Bool.and_eq_true] at h
      have := ih cs h.2
      simp only [List.length_cons]
      omega

theorem occursAt_singleton (s : List Char) (c : Char) :
    occursAt s [c] = true ↔ s[0]? = some c := by
  cases s with
  | nil => simp [occursAt]
  | cons d ds =>
    cases ds <;> simp [occursAt]

/-- The search returns the first position at which the pattern occurs. -/
theorem findFrom_found (pattern : List Char) (rest : List Char) :
    ∀ (pos i : Nat), i ≤ rest.length → occursAt (rest.drop i) pattern = true →
      (∀ j < i, occursAt (rest.drop j) pattern = false) →
      findFrom pattern rest pos = pos + i := by
  induction rest with
  | nil =>
    intro pos i hi hocc _
    have hi0 : i = 0 := by simpa using hi
    subst hi0
    simp only [List.drop_nil] at hocc
    simp [findFrom, hocc]
  | cons c rest ih =>
    intro pos i hi hocc hmin
    cases i with
    | zero =>
      simp only [List.drop_zero] at hocc
      simp [findFrom, hocc]
    | succ i =>
      have h0 : occursAt (c :: rest) pattern = false := by
        have := hmin 0 (Nat.succ_pos i)
        simpa using this
      simp only [findFrom, h0, Bool.false_eq_true, if_false]
      rw [ih (pos + 1) i (by simpa using hi) (by simpa using hocc)
        (fun j hj => by simpa using hmin (j + 1) (by omega))]
      omega

/-- The search returns `npos` when the pattern occurs nowhere. -/
theorem findFrom_none (pattern : List Char) (rest : List Char) :
    ∀ (pos : Nat), (∀ j, occursAt (rest.drop j) pattern = false) →
      findFrom pattern rest pos = npos := by
  induction rest with
  | nil =>
    intro pos h
    have h0 := h 0
    simp only [List.drop_nil] at h0
    simp [findFrom, h0]
  | cons c rest ih =>
    intro pos h
    have h0 : occursAt (c :: rest) pattern = false := by simpa using h 0
    simp only [findFrom, h0, Bool.false_eq_true, if_false]
    exact ih (pos + 1) (fun j => by simpa using h (j + 1))

theorem find_zero (source pattern : List Char) :
    find source pattern 0 = findFrom pattern source 0 := by
  simp [find]

theorem decSizeT_zero : decSizeT 0 = npos := by decide

theorem decSizeT_succ (n : Nat) (h : n + 1 < 18446744073709551616) : decSizeT (n + 1) = n := by
  unfold decSizeT
  omega

/-- The backward scan, started inside the source, stops at the nearest `#` at or before its
start, or, when there is none, reads at `npos` after `start` has wrapped around. -/
theorem backwardLoop_spec (source : List Char) (hsize : source.length < 18446744073709551616)
    (start : Nat) :
    ∀ (fuel : Nat), start < source.length → start + 2 ≤ fuel →
      (∃ s, s ≤ start ∧ backwardLoop source fuel start = Scan.done s ∧
          source[s]? = some '#' ∧ ∀ j ≤ start, s < j → source[j]? ≠ some '#')
      ∨ (backwardLoop source fuel start = Scan.outOfRange npos ∧
          ∀ j ≤ start, source[j]? ≠ some '#') := by
  induction start with
  | zero =>
    intro fuel hlt hfuel
    obtain ⟨f, rfl⟩ : ∃ f, fuel = f + 2 := ⟨fuel - 2, by omega⟩
    obtain ⟨c, hc⟩ : ∃ c, source[0]? = some c := by
      cases h : source[0]? with
      | none => rw [List.getElem?_eq_none_iff] at h; omega
      | some c => exact ⟨c, rfl⟩
    by_cases hch : c = '#'
    · left
      refine ⟨0, Nat.le_refl 0, ?_, by rw [hc, hch], ?_⟩
      · simp [backwardLoop, hc, hch]
      · intro j hj hlt2
        omega
    · right
      have hnone : source[npos]? = none := by
        rw [List.getElem?_eq_none_iff]
        unfold npos
        omega
      refine ⟨?_, ?_⟩
      · simp [backwardLoop, hc, hch, decSizeT_zero, hnone]
      · intro j hj
        have hj0 : j = 0 := by omega
        rw [hj0, hc]
        intro h
        exact hch (Option.some.inj h)
  | succ n ih =>
    intro fuel hlt hfuel
    obtain ⟨f, rfl⟩ : ∃ f, fuel = f + 1 := ⟨fuel - 1, by omega⟩
    obtain ⟨c, hc⟩ : ∃ c, source[n + 1]? = some c := by
      cases h : source[n + 1]? with
      | none => rw [List.getElem?_eq_none_iff] at h; omega
      | some c => exact ⟨c, rfl⟩
    by_cases hch : c = '#'
    · left
      refine ⟨n + 1, Nat.le_refl _, ?_, by rw [hc, hch], ?_⟩
      · simp [backwardLoop, hc, hch]
      · intro j hj hlt2
        omega
    · have hstep : backwardLoop source (f + 1) (n + 1) = backwardLoop source f n := by
        simp [backwardLoop, hc, hch, decSizeT_succ n (by omega)]
      have hne : source[n + 1]? ≠ some '#' := by
        rw [hc]
        intro h
        exact hch (Option.some.inj h)
      rw [hstep]
      rcases ih f (by omega) (by omega) with ⟨s, hs, hres, hsharp, hmax⟩ | ⟨hres, hall⟩
      · left
        refine ⟨s, by omega, hres, hsharp, ?_⟩
        intro j hj hlt2
        by_cases hjn : j = n + 1
        · rw [hjn]; exact hne
        · exact hmax j (by omega) hlt2
      · right
        refine ⟨hres, ?_⟩
        intro j hj
        by_cases hjn : j = n + 1
        · rw [hjn]; exact hne
        · exact hall j (by omega)

/-- The forward scan stops at the first newline at or after its start, or at the end of the
source. -/
theorem forwardLoop_spec (source : List Char) (d : Nat) :
    ∀ (e fuel : Nat), source.length - e = d → e ≤ source.length → d + 1 ≤ fuel →
      ∃ k, forwardLoop source fuel e = Scan.done k ∧ e ≤ k ∧ k ≤ source.length ∧
        (∀ j, e ≤ j → j < k → source[j]? ≠ some '\n') ∧
        (k < source.length → source[k]? = some '\n') := by
  induction d with
  | zero =>
    intro e fuel hd he hfuel
    obtain ⟨f, rfl⟩ : ∃ f, fuel = f + 1 := ⟨fuel - 1, by omega⟩
    have hnot : ¬ e < source.length := by omega
    refine ⟨e, by simp [forwardLoop, hnot], Nat.le_refl _, he, ?_, ?_⟩
    · intro j h1 h2; omega
    · intro h; omega
  | succ d ih =>
    intro e fuel hd he hfuel
    obtain ⟨f, rfl⟩ : ∃ f, fuel = f + 1 := ⟨fuel - 1, by omega⟩
    have hlt : e < source.length := by omega
    obtain ⟨c, hc⟩ : ∃ c, source[e]? = some c := by
      cases h : source[e]? with
      | none => rw [List.getElem?_eq_none_iff] at h; omega
      | some c => exact ⟨c, rfl⟩
    by_cases hch : c = '\n'
    · refine ⟨e, by simp [forwardLoop, hlt, hc, hch], Nat.le_refl _, he, ?_, ?_⟩
      · intro j h1 h2; omega
      · intro _; rw [hc, hch]
    · obtain ⟨k, hres, hek, hk, hbefore, hat⟩ := ih (e + 1) f (by omega) (by omega) (by omega)
      refine ⟨k, ?_, by omega, hk, ?_, hat⟩
      · simp only [forwardLoop, hlt, if_true, hc, hch, if_false]
        exact hres
      · intro j h1 h2
        by_cases hje : j = e
        · rw [hje, hc]
          intro h
          exact hch (Option.some.inj h)
        · exact hbefore j (by omega) h2

theorem findTyped_sigil_eq (source : List Char) (sigil : StrictLevel)
    (hsigil : sigil ≠ StrictLevel.None) :
    findTyped source sigil =
      if find source "typed:".toList 0 = npos then Scan.done ⟨0, 0⟩
      else
        match backwardLoop source (source.length + 2) (find source "typed:".toList 0) with
        | Scan.noFuel => Scan.noFuel
        | Scan.outOfRange i => Scan.outOfRange i
        | Scan.done start =>
          match forwardLoop source (source.length + 1) start with
          | Scan.noFuel => Scan.noFuel
          | Scan.outOfRange i => Scan.outOfRange i
          | Scan.done e =>
            match source[e]? with
            | none => Scan.outOfRange e
            | some c => if c = '\n' then Scan.done ⟨start, e + 1⟩ else Scan.done ⟨start, e⟩ := by
  unfold findTyped
  rw [if_neg hsigil]

/-- Without an occurrence of `typed:` the empty location at `0` is returned. -/
theorem findTyped_sigil_absent (source : List Char) (sigil : StrictLevel)
    (hsigil : sigil ≠ StrictLevel.None)
    (habsent : ∀ i, occursAt (source.drop i) "typed:".toList = false) :
    findTyped source sigil = Scan.done ⟨0, 0⟩ := by
  rw [findTyped_sigil_eq source sigil hsigil, find_zero, findFrom_none _ _ 0 habsent]
  simp

/-- What `findTyped` does when `typed:` first occurs at `p`: it returns the line of the nearest
`#` at or before `p` when that line ends with a newline, reads at `source.size()` when it does
not, and reads at `npos` when there is no `#` at or before `p`. -/
theorem findTyped_sigil_result (source : List Char) (sigil : StrictLevel)
    (hsigil : sigil ≠ StrictLevel.None) (hsize : source.length < 18446744073709551616)
    (p : Nat) (hocc : occursAt (source.drop p) "typed:".toList = true)
    (hfirst : ∀ i < p, occursAt (source.drop i) "typed:".toList = false) :
    (∃ s k, s ≤ p ∧ source[s]? = some '#' ∧ (∀ j ≤ p, s < j → source[j]? ≠ some '#') ∧
        s ≤ k ∧ k ≤ source.length ∧ (∀ j, s ≤ j → j < k → source[j]? ≠ some '\n') ∧
        ((source[k]? = some '\n' ∧ findTyped source sigil = Scan.done ⟨s, k + 1⟩) ∨
          (k = source.length ∧ findTyped source sigil = Scan.outOfRange source.length)))
    ∨ ((∀ j ≤ p, source[j]? ≠ some '#') ∧ findTyped source sigil = Scan.outOfRange npos) := by
  have hlen := occursAt_length _ _ hocc
  have hlen6 : ("typed:".toList).length = 6 := by decide
  rw [hlen6, List.length_drop] at hlen
  have hp : p < source.length := by omega
  have hfind : find source "typed:".toList 0 = p := by
    rw [find_zero, findFrom_found _ source 0 p (by omega) hocc hfirst]
    omega
  have hne : p ≠ npos := by
    unfold npos
    omega
  rw [findTyped_sigil_eq source sigil hsigil, hfind, if_neg hne]
  rcases backwardLoop_spec source hsize p (source.length + 2) hp (by omega) with
    ⟨s, hs, hres, hsharp, hmax⟩ | ⟨hres, hall⟩
  · left
    obtain ⟨k, hfw, hsk, hk, hbefore, hat⟩ :=
      forwardLoop_spec source (source.length - s) s (source.length + 1) rfl (by omega)
        (by omega)
    refine ⟨s, k, hs, hsharp, hmax, hsk, hk, hbefore, ?_⟩
    rw [hres]
    simp only [hfw]
    by_cases hklt : k < source.length
    · left
      have hnl := hat hklt
      refine ⟨hnl, ?_⟩
      rw [hnl]
      simp
    · right
      have hkeq : k = source.length := by omega
      have hnone : source[k]? = none := by
        rw [List.getElem?_eq_none_iff]
        omega
      refine ⟨hkeq, ?_⟩
      rw [hnone, hkeq]
  · right
    refine ⟨hall, ?_⟩
    rw [hres]

/-- C15 on the code: for a file whose `originalSigil` is `None`, `findTyped` returns the empty
location at `0` when the source does not start with `#!`, and the empty location right after
the first newline when it starts with `#!` and has a newline; when it starts with `#!` and has
no newline, `find` gives `npos`, which becomes `-1` as an `int`, and the location is `0`,
before the shebang line. -/
theorem findTyped_no_sigil (source : List Char) (hsize : source.length < 2147483648) :
    ((source[0]? ≠ some '#' ∨ source[1]? ≠ some '!') →
        findTyped source StrictLevel.None = Scan.done ⟨0, 0⟩)
    ∧ (source[0]? = some '#' → source[1]? = some '!' →
        (∀ k : Nat, source[k]? = some '\n' → (∀ j < k, source[j]? ≠ some '\n') →
            findTyped source StrictLevel.None = Scan.done ⟨(k : Int) + 1, (k : Int) + 1⟩)
        ∧ ((∀ j : Nat, source[j]? ≠ some '\n') →
            findTyped source StrictLevel.None = Scan.done ⟨0, 0⟩)) := by
  have hocc : ∀ i, occursAt (source.drop i) ['\n'] = true ↔ source[i]? = some '\n' := by
    intro i
    rw [occursAt_singleton, List.getElem?_drop]
    simp
  constructor
  · intro h
    unfold findTyped
    rw [if_pos rfl]
    rcases h with h | h
    · have hb : (source[0]? == some '#') = false := by simpa using h
      simp [hb]
    · have hb : (source[1]? == some '!') = false := by simpa using h
      simp [hb]
  · intro h0 h1
    have hlen : 2 ≤ source.length := by
      by_contra hlt
      have hnone : source[1]? = none := by
        rw [List.getElem?_eq_none_iff]
        omega
      rw [hnone] at h1
      exact Option.noConfusion h1
    have hcond : (decide (2 ≤ source.length) && source[0]? == some '#' &&
        source[1]? == some '!') = true := by
      simp [hlen, h0, h1]
    constructor
    · intro k hk hmin
      have hklt : k < source.length := by
        by_contra hge
        have hnone : source[k]? = none := by
          rw [List.getElem?_eq_none_iff]
          omega
        rw [hnone] at hk
        exact Option.noConfusion hk
      have hfind : find source ['\n'] 0 = k := by
        rw [find_zero, findFrom_found ['\n'] source 0 k (by omega) ((hocc k).mpr hk)]
        · omega
        · intro j hj
          have := hmin j hj
          cases hb : occursAt (source.drop j) ['\n'] with
          | false => rfl
          | true => exact absurd ((hocc j).mp hb) this
      have hint : toInt k = (k : Int) := by
        unfold toInt Int.bmod
        simp only []
        omega
      unfold findTyped
      rw [if_pos rfl, if_pos hcond]
      simp only [hfind, hint]
    · intro hnone
      have hfind : find source ['\n'] 0 = npos := by
        rw [find_zero, findFrom_none ['\n'] source 0]
        intro j
        cases hb : occursAt (source.drop j) ['\n'] with
        | false => rfl
        | true => exact absurd ((hocc j).mp hb) (hnone j)
      have hint : toInt npos = -1 := by decide
      unfold findTyped
      rw [if_pos rfl, if_pos hcond]
      simp only [hfind, hint]
      rfl

theorem findTyped_no_sigil_witness :
    "#!/usr/bin/env ruby".toList.length < 2147483648
    ∧ findTyped "#!/usr/bin/env ruby".toList StrictLevel.None = Scan.done ⟨0, 0⟩
    ∧ findTyped "#!/usr/bin/env ruby\nputs 1\n".toList StrictLevel.None
        = Scan.done ⟨20, 20⟩ :=
  ⟨by decide,
   ((findTyped_no_sigil "#!/usr/bin/env ruby".toList (by decide)).2 (by decide)
      (by decide)).2 (fun j h => absurd (List.getElem?_mem h) (by decide)),
   by decide⟩

/-- C16 on the code: for a file whose `originalSigil` is not `None`, `findTyped` terminates,
and a read out of range, when there is one, is at `source.size()` (the check after the forward
scan) or at `npos` (the backward scan after `start` has wrapped around below `0`). Both
happen: the first for the source the driver builds for inline input, which ends with the line
`# typed: true` and no newline; the second when no `#` stands before the first `typed:`. -/
theorem findTyped_reads (source : List Char) (sigil : StrictLevel)
    (hsigil : sigil ≠ StrictLevel.None) (hsize : source.length < 18446744073709551616) :
    findTyped source sigil ≠ Scan.noFuel
    ∧ (∀ i, findTyped source sigil = Scan.outOfRange i → i = source.length ∨ i = npos)
    ∧ findTyped "class A; end\n# typed: true".toList StrictLevel.True = Scan.outOfRange 26
    ∧ "class A; end\n# typed: true".toList.length = 26
    ∧ findTyped "typed: true\n# typed: true\n".toList StrictLevel.True
        = Scan.outOfRange npos := by
  have hmain : findTyped source sigil ≠ Scan.noFuel ∧
      (∀ i, findTyped source sigil = Scan.outOfRange i → i = source.length ∨ i = npos) := by
    by_cases hex : ∃ i, occursAt (source.drop i) "typed:".toList = true
    · have hocc := Nat.find_spec hex
      have hfirst : ∀ i < Nat.find hex, occursAt (source.drop i) "typed:".toList = false := by
        intro i hi
        have := Nat.find_min hex hi
        simpa using this
      rcases findTyped_sigil_result source sigil hsigil hsize (Nat.find hex) hocc hfirst with
        ⟨s2, k2, _, _, _, _, _, _, hend⟩ | ⟨_, hres⟩
      · rcases hend with ⟨_, hres⟩ | ⟨_, hres⟩
        · rw [hres]
          exact ⟨fun h => Scan.noConfusion h, fun i h => Scan.noConfusion h⟩
        · rw [hres]
          refine ⟨fun h => Scan.noConfusion h, fun i h => ?_⟩
          left
          exact (Scan.outOfRange.inj h).symm
      · rw [hres]
        refine ⟨fun h => Scan.noConfusion h, fun i h => ?_⟩
        right
        exact (Scan.outOfRange.inj h).symm
    · have habsent : ∀ i, occursAt (source.drop i) "typed:".toList = false := by
        intro i
        cases hb : occursAt (source.drop i) "typed:".toList with
        | false => rfl
        | true => exact absurd ⟨i, hb⟩ hex
      rw [findTyped_sigil_absent source sigil hsigil habsent]
      exact ⟨fun h => Scan.noConfusion h, fun i h => Scan.noConfusion h⟩
  exact ⟨hmain.1, hmain.2, by decide, by decide, by decide⟩

theorem findTyped_reads_witness :
    (StrictLevel.True ≠ StrictLevel.None
      ∧ "class A; end\n# typed: true".toList.length < 18446744073709551616)
    ∧ findTyped "class A; end\n# typed: true".toList StrictLevel.True ≠ Scan.noFuel
    ∧ findTyped "class A; end\n# typed: true".toList StrictLevel.True
        = Scan.outOfRange "class A; end\n# typed: true".toList.length :=
  ⟨⟨by decide, by decide⟩,
   (findTyped_reads "class A; end\n# typed: true".toList StrictLevel.True (by decide)
      (by decide)).1,
   by decide⟩

end Sorbet
